import Mathlib

/-!
The cluster-order construction engine of librascal's `AdaptorMaxOrder`.

A shallow embedding of `src/structure_managers/adaptor_increase_maxorder.hh`, of the
counting members of `src/structure_managers/structure_manager_centers.cc` and of the
cluster count of `src/structure_managers/adaptor_filter_species.hh`.

* A `std::vector<size_t>` is a `List Nat`; `push_back` appends at the end.
  Entries are positions and counts of in-memory vectors, far below `2^64`, so
  `size_t` arithmetic is done in `Nat`.  The one narrower counter of the file,
  the `unsigned int nneigh_off` of `make_half_neighbour_list`, wraps at `2^32`.
* A `std::set<size_t>` is the ascending list of its elements.
* A cluster reference is represented by its array of atom indices
  (`get_atom_indices()`).  The iteration machinery over clusters lives in the
  base class `StructureManager` (header not part of the sources), so what the
  loops of this file read from the wrapped manager is a parameter:
  `pairs a` is the sequence of `pair.back()` met by `for (auto pair : j_cluster)`
  for the atom `a`, and `children c` the sequence of trailing atoms met by
  `for (auto next_cluster : cluster)`.  Where the wrapped manager is an order-2
  `AdaptorMaxOrder`, they are what its accessors `get_cluster_size` and
  `get_cluster_neighbour` present (`order2_manager`).
* The floating point test `(atom_i.get_position() - atom_j.get_position()).norm()
  <= cutoff` is a parameter `within i j : Bool`; over a structure with rational
  coordinates it is computed in exact arithmetic (`distance_le_cutoff`).
* `cluster_indices_container` belongs to the base class and does not feed the
  arrays modelled here; it is left out.
* A query that a layer passes on to `this->manager` takes the wrapped manager's
  answer as a function argument; a chain of layers is a list, top layer first.
  A read past the end of a vector is `none`; a thrown `std::runtime_error` is
  `Except.error` with its message, and so is a call that a `static_assert`
  rejects.
* The bin grid of `make_full_neighbour_list` is computed over the rationals, in
  exact arithmetic; `static_cast<int>` is truncation toward zero, and a statement
  without defined result is `none`.
* The index conversions of namespace `internal` work on signed integers of `w`
  bits, `w` a parameter, with two's complement wrap-around; `modulo_and_rest`
  works on exact integers.  The C++ operators `/` and `%` are `Int.tdiv` and
  `Int.tmod`.
-/

namespace rascal

/-! ## Vector primitives -/

/-- The value `v.back()`; every call site has a non-empty vector. -/
def back (v : List Nat) : Nat := v.getLastD 0

/-- The statement `v.back()++`. -/
def incr_back : List Nat → List Nat
  | [] => []
  | [x] => [x + 1]
  | x :: y :: t => x :: incr_back (y :: t)

/-- The call `v.resize(n)` on a vector of `size_t`: truncate, or pad with value-initialised
zeros. -/
def resize (n : Nat) (v : List Nat) : List Nat :=
  v.take n ++ List.replicate (n - v.length) 0

/-- The call `s.insert(x)` on a `std::set<size_t>` kept as its ascending element list. -/
def set_insert (x : Nat) : List Nat → List Nat
  | [] => [x]
  | y :: t =>
    if x < y then x :: y :: t
    else if y < x then y :: set_insert x t
    else y :: t

/-- The algorithm `std::set_difference(first1, last1, first2, last2, out)`: a single merge pass
over both ranges, whatever their contents. -/
def set_difference : List Nat → List Nat → List Nat
  | [], _ => []
  | x :: xs, [] => x :: xs
  | x :: xs, y :: ys =>
    if x < y then x :: set_difference xs (y :: ys)
    else if y < x then set_difference (x :: xs) ys
    else set_difference xs ys
termination_by l1 l2 => l1.length + l2.length

/-! ## The layer state -/

/-- The data members of an `AdaptorMaxOrder` that the construction code writes. -/
structure AdaptorMaxOrder where
  /-- Member `atom_indices` -/
  atom_indices : List Nat
  /-- Member `nb_neigh` -/
  nb_neigh : List Nat
  /-- Member `neighbours` -/
  neighbours : List Nat
  /-- Member `offsets` -/
  offsets : List Nat
  deriving DecidableEq

/-- A freshly constructed layer: every vector is empty. -/
def AdaptorMaxOrder.fresh : AdaptorMaxOrder :=
  { atom_indices := [], nb_neigh := [], neighbours := [], offsets := [] }

/-- The member function `add_atom(const int atom_index)`. -/
def add_atom (atom_index : Nat) (m : AdaptorMaxOrder) : AdaptorMaxOrder :=
  let m1 := { m with atom_indices := m.atom_indices ++ [atom_index] }
  let m2 := { m1 with nb_neigh := incr_back m1.nb_neigh }
  let m3 := { m2 with offsets := incr_back m2.offsets }
  let m4 := { m3 with nb_neigh := m3.nb_neigh ++ [0] }
  { m4 with offsets := m4.offsets ++ [back m4.offsets + back m4.nb_neigh] }

/-- The member function `add_entry_number_of_neighbours()`. -/
def add_entry_number_of_neighbours (m : AdaptorMaxOrder) : AdaptorMaxOrder :=
  { m with nb_neigh := m.nb_neigh ++ [0] }

/-- The member function `add_neighbour_of_cluster(const int atom_index)`. -/
def add_neighbour_of_cluster (atom_index : Nat) (m : AdaptorMaxOrder) : AdaptorMaxOrder :=
  let m1 := { m with neighbours := m.neighbours ++ [atom_index] }
  { m1 with nb_neigh := incr_back m1.nb_neigh }

/-- The loop body of `set_offsets()`, run for `i = i0, i0 + 1, ...` as long as fuel lasts. -/
def set_offsets_loop (nb_neigh : List Nat) : Nat → Nat → List Nat → List Nat
  | 0, _, offsets => offsets
  | fuel + 1, i, offsets =>
    set_offsets_loop nb_neigh fuel (i + 1) (offsets ++ [offsets.getD i 0 + nb_neigh.getD i 0])

/-- The member function `set_offsets()`: `resize(1)`, then one `emplace_back` per entry of
`nb_neigh`. -/
def set_offsets (m : AdaptorMaxOrder) : AdaptorMaxOrder :=
  let n_tuples := m.nb_neigh.length
  { m with offsets := set_offsets_loop m.nb_neigh n_tuples 0 (resize 1 m.offsets) }

/-! ## The extension step `AddOrderLoop<Order, true>::loop` -/

/-- The inner loop `for (auto pair : j_cluster)`: insert every `j_add > i_atoms.back()`. -/
def collect_pairs (last : Nat) (js : List Nat) (current_j_atoms : List Nat) : List Nat :=
  js.foldl (fun s j_add => if j_add > last then set_insert j_add s else s) current_j_atoms

/-- The outer loop `for (auto atom_index : i_atoms)`; the result is
`(current_i_atoms, current_j_atoms)`. -/
def collect_atoms (pairs : Nat → List Nat) (i_atoms : List Nat) : List Nat × List Nat :=
  i_atoms.foldl
    (fun acc atom_index =>
      (acc.1 ++ [atom_index], collect_pairs (back i_atoms) (pairs atom_index) acc.2))
    ([], [])

/-- The vector `atoms_to_add` computed for a cluster. -/
def atoms_to_add (pairs : Nat → List Nat) (i_atoms : List Nat) : List Nat :=
  let c := collect_atoms pairs i_atoms
  set_difference c.2 c.1

/-- The body of `AddOrderLoop<Order, true>::loop(cluster, manager)`. -/
def AddOrderLoop_true_loop (pairs : Nat → List Nat) (cluster : List Nat)
    (manager : AdaptorMaxOrder) : AdaptorMaxOrder :=
  let toAdd := atoms_to_add pairs cluster
  let manager1 := add_entry_number_of_neighbours manager
  if toAdd.length > 0 then
    toAdd.foldl (fun mm j => add_neighbour_of_cluster j mm) manager1
  else manager1

/-! ## The pass over the wrapped manager -/

/-- What the construction loops read from the wrapped manager (`ManagerImplementation`). -/
structure ManagerImplementation where
  /-- Atom indices met by `for (auto atom : manager)`, in iteration order -/
  atoms : List Nat
  /-- Trailing atoms of the clusters met by `for (auto next_cluster : cluster)` -/
  children : List Nat → List Nat
  /-- Values `pair.back()` met by `for (auto pair : j_cluster)` for the atom `atom_index` -/
  pairs : Nat → List Nat

/-- The template recursion `AddOrderLoop<Order, IsDummy>::loop`, with
`depth = (traits::MaxOrder - 1) - Order`: at depth `0` the flag `IsDummy` is true and the
specialisation runs, otherwise the generic loop descends into every child cluster. -/
def AddOrderLoop_loop (mi : ManagerImplementation) :
    Nat → List Nat → AdaptorMaxOrder → AdaptorMaxOrder
  | 0, cluster, manager => AddOrderLoop_true_loop mi.pairs cluster manager
  | depth + 1, cluster, manager =>
    (mi.children cluster).foldl
      (fun mm j => AddOrderLoop_loop mi depth (cluster ++ [j]) mm) manager

/-- The function `IncreaseMaxOrder<MaxOrder, false>::increase_maxorder` (`MaxOrder > 2`): the
loop over the atoms starts the recursion at `Order = 1`, then `set_offsets()` runs. -/
def increase_maxorder (MaxOrder : Nat) (mi : ManagerImplementation) (m : AdaptorMaxOrder) :
    AdaptorMaxOrder :=
  set_offsets
    (mi.atoms.foldl (fun mm atom => AddOrderLoop_loop mi (MaxOrder - 1 - 1) [atom] mm) m)

/-! ## The half neighbour list -/

/-- The inner loop `for (; jt != manager.end(); ++jt)` of `make_half_neighbour_list`; the
second component is the local `unsigned int nneigh_off`. -/
def half_inner_loop (within : Nat → Nat → Bool) (i : Nat) (js : List Nat)
    (st : AdaptorMaxOrder × Nat) : AdaptorMaxOrder × Nat :=
  js.foldl
    (fun s j =>
      if within i j then
        ({ s.1 with neighbours := s.1.neighbours ++ [j], nb_neigh := incr_back s.1.nb_neigh },
          (s.2 + 1) % 2 ^ 32)
      else s)
    st

/-- One turn of the outer loop of `make_half_neighbour_list` for the atom `i` of `N`. -/
def half_outer_step (N : Nat) (within : Nat → Nat → Bool) (st : AdaptorMaxOrder × Nat)
    (i : Nat) : AdaptorMaxOrder × Nat :=
  let st1 := half_inner_loop within i (List.range' (i + 1) (N - (i + 1))) (add_atom i st.1, st.2)
  ({ st1.1 with offsets := st1.1.offsets ++ [st1.2] }, st1.2)

/-- The member function `make_half_neighbour_list()` over a manager of `N` atoms whose atom at
position `i` has index `i`; the outer loop stops before the last atom
(`it != --this->manager.end()`). -/
def make_half_neighbour_list (N : Nat) (within : Nat → Nat → Bool) (m : AdaptorMaxOrder) :
    AdaptorMaxOrder :=
  let m1 := { m with nb_neigh := m.nb_neigh ++ [0] }
  let m2 := { m1 with offsets := m1.offsets ++ [0] }
  ((List.range (N - 1)).foldl (half_outer_step N within) (m2, 0)).1

/-- The function `IncreaseMaxOrder<MaxOrder, true>::increase_maxorder` (`MaxOrder == 2`): three
`resize(0)`, then `make_half_neighbour_list()`.  The following call
`make_full_neighbour_list()` assigns none of the four members of the state. -/
def increase_maxorder_true (N : Nat) (within : Nat → Nat → Bool) (m : AdaptorMaxOrder) :
    AdaptorMaxOrder :=
  let m1 := { m with nb_neigh := resize 0 m.nb_neigh }
  let m2 := { m1 with offsets := resize 0 m1.offsets }
  let m3 := { m2 with neighbours := resize 0 m2.neighbours }
  make_half_neighbour_list N within m3

/-- The member function `update()` of a layer with `traits::MaxOrder == 2`. -/
def update_order2 (N : Nat) (within : Nat → Nat → Bool) (m : AdaptorMaxOrder) :
    AdaptorMaxOrder :=
  increase_maxorder_true N within m

/-- The member function `update()` of a layer with `traits::MaxOrder > 2`. -/
def update (MaxOrder : Nat) (mi : ManagerImplementation) (m : AdaptorMaxOrder) :
    AdaptorMaxOrder :=
  increase_maxorder MaxOrder mi m

/-- The accessor `get_cluster_size` for a cluster of order `traits::MaxOrder - 1` whose cluster
index at this layer is `access_index`. -/
def get_cluster_size (m : AdaptorMaxOrder) (access_index : Nat) : Option Nat :=
  m.nb_neigh.get? access_index

/-- The accessor `get_cluster_neighbour` for a cluster of order `traits::MaxOrder - 1` whose
cluster index at this layer is `cluster_index`: `neighbours[offsets[cluster_index] + index]`;
`none` stands for a read past the end of a vector. -/
def get_cluster_neighbour (m : AdaptorMaxOrder) (cluster_index index : Nat) : Option Nat :=
  match m.offsets.get? cluster_index with
  | some offset => m.neighbours.get? (offset + index)
  | none => none

/-! ## Clusters recorded by the builders

The builders append, during the turn of one parent cluster, a run of atom indices to
`neighbours`; a cluster one order up is the parent followed by one entry of its run. -/

/-- The run appended to `neighbours` by `make_half_neighbour_list` during the turn of atom `i`
of the outer loop. -/
def half_list_run (N : Nat) (within : Nat → Nat → Bool) (i : Nat) : List Nat :=
  (List.range' (i + 1) (N - (i + 1))).filter (fun j => within i j)

/-- The clusters recorded by one extension pass over the parent clusters `clusters`: each
parent followed by one entry of `atoms_to_add`, in recording order. -/
def extend_clusters (pairs : Nat → List Nat) (clusters : List (List Nat)) : List (List Nat) :=
  clusters.flatMap (fun C => (atoms_to_add pairs C).map (fun j => C ++ [j]))

/-- The clusters on which the recursion `AddOrderLoop_loop` runs the specialisation, in visiting
order, when started on `cluster` at the given depth. -/
def visited_clusters (mi : ManagerImplementation) : Nat → List Nat → List (List Nat)
  | 0, cluster => [cluster]
  | depth + 1, cluster =>
    (mi.children cluster).flatMap (fun j => visited_clusters mi depth (cluster ++ [j]))

/-- The parent clusters of one pass `increase_maxorder`, in visiting order: atoms in iteration
order, then the children of each cluster in iteration order. -/
def parent_clusters (MaxOrder : Nat) (mi : ManagerImplementation) : List (List Nat) :=
  mi.atoms.flatMap (fun atom => visited_clusters mi (MaxOrder - 1 - 1) [atom])

/-- The contents `offsets` can have on a layer that only `set_offsets` writes: empty after
construction, or left by a call of `set_offsets` on such a layer. -/
inductive OffsetsWritten : List Nat → Prop
  | constructed : OffsetsWritten []
  | by_set_offsets (m : AdaptorMaxOrder) :
      OffsetsWritten m.offsets → OffsetsWritten (set_offsets m).offsets

/-- The layer after the runs of the parent clusters `clusters` have been recorded: one entry of
`nb_neigh` per parent, its run appended to `neighbours`. -/
def record_clusters (pairs : Nat → List Nat) (clusters : List (List Nat))
    (m : AdaptorMaxOrder) : AdaptorMaxOrder :=
  { m with
    neighbours := m.neighbours ++ clusters.flatMap (atoms_to_add pairs),
    nb_neigh := m.nb_neigh ++ clusters.map (fun C => (atoms_to_add pairs C).length) }

/-! ## Queries along the adaptor chain -/

/-- The function `get_offset_impl<Order>(counters)`, with `Order` the length of `counters`
(admitted by the `static_assert` when `Order < traits::MaxOrder`).  The argument `wrapped` is
`this->manager.get_offset_impl`; `none` stands for a read past the end of `offsets`. -/
def get_offset_impl (MaxOrder : Nat) (wrapped : List Nat → Option Nat) (m : AdaptorMaxOrder)
    (counters : List Nat) : Option Nat :=
  let Order := counters.length
  if Order = 1 then
    m.offsets.get? (counters.headD 0)
  else if Order = MaxOrder - 1 then
    match wrapped counters with
    | some i =>
      let j := counters.getD (Order - 1) 0
      let tuple_index := i + j
      m.offsets.get? tuple_index
    | none => none
  else
    wrapped counters

/-- The function `AdaptorMaxOrder::get_nb_clusters(cluster_size)`; the argument `wrapped` is
`this->manager.get_nb_clusters`. -/
def get_nb_clusters (MaxOrder : Nat) (wrapped : Nat → Except String Nat) (m : AdaptorMaxOrder)
    (cluster_size : Nat) : Except String Nat :=
  if cluster_size = MaxOrder then Except.ok m.neighbours.length
  else wrapped cluster_size

/-- The members of `StructureManagerCenters` written by `build` that hold counts and indices
(`positions`, `atom_types`, `lattice` and `pbc` hold the copied input). -/
structure StructureManagerCenters where
  /-- Member `natoms` -/
  natoms : Nat
  /-- Member `atoms_index[0]` -/
  atoms_index : List Nat
  deriving DecidableEq

/-- The function `StructureManagerCenters::build`, for a `positions` matrix of `Natom`
columns: `natoms` is assigned, the ids `0, ..., Natom - 1` are pushed to `atoms_index[0]`. -/
def StructureManagerCenters.build (Natom : Nat) (s : StructureManagerCenters) :
    StructureManagerCenters :=
  { s with natoms := Natom, atoms_index := s.atoms_index ++ List.range Natom }

/-- The function `StructureManagerCenters::update(positions, atom_types, cell, pbc)`. -/
def StructureManagerCenters.update (Natom : Nat) (s : StructureManagerCenters) :
    StructureManagerCenters :=
  StructureManagerCenters.build Natom s

/-- The function `StructureManagerCenters::get_nb_clusters(cluster_size)`. -/
def StructureManagerCenters.get_nb_clusters (s : StructureManagerCenters) (cluster_size : Nat) :
    Except String Nat :=
  if cluster_size = 1 then Except.ok s.natoms
  else Except.error "Can only handle atoms and pairs, use adaptor to increase MaxOrder."

/-- The call `get_nb_clusters` on the top layer of a chain: a `StructureManagerCenters` at the
bottom and `AdaptorMaxOrder` layers stacked on it, listed top layer first; a layer with `n`
layers below it has `traits::MaxOrder = n + 2`. -/
def chain_get_nb_clusters (bottom : StructureManagerCenters) :
    List AdaptorMaxOrder → Nat → Except String Nat
  | [], cluster_size => bottom.get_nb_clusters cluster_size
  | top :: below, cluster_size =>
    get_nb_clusters (below.length + 2) (chain_get_nb_clusters bottom below) top cluster_size

/-- The call `get_offset_impl<Order>(counters)` on the top layer of a chain of
`AdaptorMaxOrder` layers, listed top layer first, over a bottom manager whose `get_offset_impl`
is `bottom`; a layer with `n` layers below it has `traits::MaxOrder = n + 2`.  The
`static_assert(Order < traits::MaxOrder)` of a layer is checked wherever its function is
instantiated, and the body of a layer names `this->manager.get_offset_impl(counters)` in two
branches of a run-time `if`: the wrapped manager's function is instantiated for the same `Order`
whichever branch runs.  A call that an assertion rejects (the program does not compile) is
`Except.error` with the message of the assertion. -/
def chain_get_offset_impl (bottom : List Nat → Except String (Option Nat)) :
    List AdaptorMaxOrder → List Nat → Except String (Option Nat)
  | [], counters => bottom counters
  | top :: below, counters =>
    if counters.length < below.length + 2 then
      match chain_get_offset_impl bottom below counters with
      | Except.ok i => Except.ok (get_offset_impl (below.length + 2) (fun _ => i) top counters)
      | Except.error e => Except.error e
    else
      Except.error "this implementation handles only up to the respective MaxOrder"

/-- A wrapped manager with `MaxOrder == 2` as the construction loops see it: its atoms, and for
each atom `a` the pairs `(a, j)` with `j` running through `pairs a`. -/
def pair_manager (atoms : List Nat) (pairs : Nat → List Nat) : ManagerImplementation :=
  { atoms := atoms,
    children := fun c => match c with
      | [a] => pairs a
      | _ => [],
    pairs := pairs }

/-- Modelled from the spec: the iteration over the children of a cluster of order
`traits::MaxOrder - 1`, as in `for (auto pair : j_cluster)`; it belongs to the base class
`StructureManager`, whose header is not among the sources.  The cluster with cluster index `c`
presents `get_cluster_size` children ("neighbor count of cluster C"), the child at position
`index` ending in the atom `get_cluster_neighbour(cluster, index)` ("k-th neighbor atom index of
cluster C"); `none` stands for a read past the end of a vector. -/
def cluster_children (m : AdaptorMaxOrder) (c : Nat) : List (Option Nat) :=
  match get_cluster_size m c with
  | some n => (List.range n).map (fun index => get_cluster_neighbour m c index)
  | none => []

/-- An order-2 layer `m` over `N` atoms, the atom at position `a` having index `a`, as the
construction loops of the layer above read it: the atoms in order and, for each atom, the
trailing atoms of the pairs that `cluster_children` presents (a read past the end presents no
pair). -/
def order2_manager (N : Nat) (m : AdaptorMaxOrder) : ManagerImplementation :=
  { atoms := List.range N,
    children := fun c => match c with
      | [a] => (cluster_children m a).reduceOption
      | _ => [],
    pairs := fun a => (cluster_children m a).reduceOption }

/-! ## Read accessors -/

/-- The three arrays of the compressed layout of a layer. -/
def csr_arrays (m : AdaptorMaxOrder) : List Nat × List Nat × List Nat :=
  (m.nb_neigh, m.neighbours, m.offsets)

/-- A cluster reference `ClusterRefKey<Order, Layer>` as the accessors use it: its order, its
atom indices and its cluster index at every layer. -/
structure ClusterRefKey where
  /-- Template parameter `Order` -/
  Order : Nat
  /-- Atom indices of the cluster -/
  atom_indices : List Nat
  /-- Cluster indices, one per layer -/
  cluster_indices : List Nat

/-- The call `cluster.get_cluster_index(Layer)`. -/
def ClusterRefKey.get_cluster_index (cluster : ClusterRefKey) (Layer : Nat) : Nat :=
  cluster.cluster_indices.getD Layer 0

/-- The answers of the wrapped manager (`this->manager`) to the read accessors; `V` is the type
of a position vector. -/
structure WrappedAccessors (V : Type) where
  /-- Answer of `manager.get_size()` -/
  get_size : Nat
  /-- Answer of `manager.get_position(atom_index)` -/
  get_position : Nat → V
  /-- Answer of `manager.get_atom_type(atom_index)` -/
  get_atom_type : Nat → Int
  /-- Answer of `manager.get_cluster_size(cluster)` -/
  get_cluster_size : ClusterRefKey → Option Nat
  /-- Answer of `manager.get_cluster_neighbour(cluster, index)` -/
  get_cluster_neighbour : ClusterRefKey → Nat → Option Nat

/-- The accessor `get_size()`. -/
def get_size {V : Type} (manager : WrappedAccessors V) (_m : AdaptorMaxOrder) : Nat :=
  manager.get_size

/-- The accessors `get_position(atom_index)` and `get_position(atom)`, the latter with
`atom.get_index()` for `atom_index`. -/
def get_position {V : Type} (manager : WrappedAccessors V) (_m : AdaptorMaxOrder)
    (atom_index : Nat) : V :=
  manager.get_position atom_index

/-- The accessor `get_atom_type(atom)`, with `atom.get_index()` for `atom_index`. -/
def get_atom_type {V : Type} (manager : WrappedAccessors V) (_m : AdaptorMaxOrder)
    (atom_index : Nat) : Int :=
  manager.get_atom_type atom_index

/-- The template accessor `get_cluster_size<Order, Layer>(cluster)`, admitted by its
`static_assert` when `Order < traits::MaxOrder`. -/
def get_cluster_size_order {V : Type} (MaxOrder : Nat) (manager : WrappedAccessors V)
    (m : AdaptorMaxOrder) (Layer : Nat) (cluster : ClusterRefKey) : Option Nat :=
  if cluster.Order < MaxOrder - 1 then
    manager.get_cluster_size cluster
  else
    get_cluster_size m (cluster.get_cluster_index Layer)

/-- The template accessor `get_cluster_neighbour<Order, Layer>(cluster, index)`, admitted by
its `static_assert` when `Order < traits::MaxOrder`. -/
def get_cluster_neighbour_order {V : Type} (MaxOrder : Nat) (manager : WrappedAccessors V)
    (m : AdaptorMaxOrder) (Layer : Nat) (cluster : ClusterRefKey) (index : Nat) : Option Nat :=
  if cluster.Order < MaxOrder - 1 then
    manager.get_cluster_neighbour cluster index
  else
    get_cluster_neighbour m (cluster.get_cluster_index Layer) index

/-! ## The half-list build over a structure -/

/-- The input taken from the structure: atom positions (one vector per atom, in enumeration
order), cell vectors and periodicity flags; coordinates are rationals. -/
structure AtomicStructure where
  /-- Columns of the positions matrix, in atom enumeration order -/
  positions : List (List ℚ)
  /-- Cell vectors -/
  cell : List (List ℚ)
  /-- Periodicity flag per axis -/
  pbc : List Bool

/-- The test `(atom_i.get_position() - atom_j.get_position()).norm() <= cutoff` of
`make_half_neighbour_list` on two position vectors, in exact arithmetic: the Euclidean norm of
the difference is at most `cutoff` when `cutoff` is not negative and the sum of the squared
coordinate differences is at most its square. -/
def distance_le_cutoff (p q : List ℚ) (cutoff : ℚ) : Bool :=
  decide (0 ≤ cutoff ∧ (List.zipWith (fun x y => (x - y) ^ 2) p q).sum ≤ cutoff ^ 2)

/-- The distance test of `make_half_neighbour_list` for the atoms at positions `i` and `j` of
the enumeration of a structure. -/
def AtomicStructure.within (s : AtomicStructure) (cutoff : ℚ) (i j : Nat) : Bool :=
  match s.positions.get? i, s.positions.get? j with
  | some p, some q => distance_le_cutoff p q cutoff
  | _, _ => false

/-- The data members of an `AdaptorSpecies`. -/
structure AdaptorSpecies where
  /-- Member `atom_indices` -/
  atom_indices : List Nat
  /-- Member `nb_neigh` -/
  nb_neigh : List Nat
  /-- Member `neighbours` -/
  neighbours : List Nat
  /-- Member `offsets` -/
  offsets : List Nat
  /-- Member `cluster_counter` -/
  cluster_counter : Nat
  deriving DecidableEq

/-- The state left by the constructor of `AdaptorSpecies`: empty vectors, counter `0`. -/
def AdaptorSpecies.constructed : AdaptorSpecies :=
  { atom_indices := [], nb_neigh := [], neighbours := [], offsets := [], cluster_counter := 0 }

/-- The member function `AdaptorSpecies::update()`: its body holds no statement. -/
def AdaptorSpecies.update (m : AdaptorSpecies) : AdaptorSpecies := m

/-- The function `AdaptorSpecies::get_nb_clusters(cluster_size)`; `MaxOrder` is the
`traits::MaxOrder` of the adaptor, equal to that of the wrapped manager, and `wrapped` is
`this->manager.get_nb_clusters`. -/
def AdaptorSpecies.get_nb_clusters (MaxOrder : Nat) (wrapped : Nat → Except String Nat)
    (m : AdaptorSpecies) (cluster_size : Nat) : Except String Nat :=
  if cluster_size = MaxOrder then Except.ok m.neighbours.length
  else wrapped cluster_size

/-! ## Integer helpers of namespace `internal`

The sources declare neither the index type `Dim_t` nor the integer vector `Vec3i_t`; both are
taken as signed integers of one width `w`, a parameter (`w = 32` for `int`).  A result that
does not fit is stored with two's complement wrap-around.  The C++ operators `/` and `%` on
signed integers are `Int.tdiv` and `Int.tmod` (truncation toward zero, remainder with the sign
of the dividend); a division without result is `none`.  The template type `T` of
`modulo_and_rest` is taken as the exact integers: operands and results stay within its
range. -/

/-- The value that a result `x` takes in a signed integer of `w` bits. -/
def wrap_int (w : Nat) (x : Int) : Int :=
  (x + 2 ^ (w - 1)) % 2 ^ w - 2 ^ (w - 1)

/-- The operator `/` on signed integers of `w` bits; there is no result for a zero divisor and
for the least value divided by `-1`. -/
def int_div (w : Nat) (x y : Int) : Option Int :=
  if y = 0 ∨ (x = -2 ^ (w - 1) ∧ y = -1) then none else some (Int.tdiv x y)

/-- The operator `%` on signed integers of `w` bits; there is no result for a zero divisor and
for the least value divided by `-1`. -/
def int_mod (w : Nat) (x y : Int) : Option Int :=
  if y = 0 ∨ (x = -2 ^ (w - 1) ∧ y = -1) then none else some (Int.tmod x y)

/-- The function `internal::modulo_and_rest(x, y)`; the pair is `(out[0], out[1])`. -/
def modulo_and_rest (x y : Int) : Int × Int :=
  let quot := Int.tdiv x y
  let rem := Int.tmod x y
  if rem ≠ 0 ∧ decide (x < 0) ≠ decide (y < 0) then
    (quot - 1, rem + y)
  else
    (quot, rem)

/-- The loop of `internal::linear_to_dim_index<Dim>(index, shape, retval)`, from index `i`
on. -/
def linear_to_dim_index_loop (w Dim : Nat) (index : Int) (shape : List Int) :
    Nat → Nat → Int → List Int → Option (List Int)
  | 0, _, _, retval => some retval
  | fuel + 1, i, factor, retval =>
    match int_div w index factor with
    | none => none
    | some quotient =>
      match int_mod w quotient (shape.getD i 0) with
      | none => none
      | some digit =>
        let retval1 := retval.set i digit
        let factor1 := if i ≠ Dim - 1 then wrap_int w (factor * shape.getD i 0) else factor
        linear_to_dim_index_loop w Dim index shape fuel (i + 1) factor1 retval1

/-- The function `internal::linear_to_dim_index<Dim>(index, shape, retval)`; the result is the
vector `retval` after the call, `none` when a division has no result. -/
def linear_to_dim_index (w Dim : Nat) (index : Int) (shape retval : List Int) :
    Option (List Int) :=
  linear_to_dim_index_loop w Dim index shape Dim 0 1 retval

/-- The loop of `internal::dimension_to_linear_index<Dim>(coord, shape)`, from index `i` on. -/
def dimension_to_linear_index_loop (w Dim : Nat) (coord shape : List Int) :
    Nat → Nat → Int → Int → Int
  | 0, _, index, _ => index
  | fuel + 1, i, index, factor =>
    let index1 := wrap_int w (index + wrap_int w (coord.getD i 0 * factor))
    let factor1 := if i ≠ Dim - 1 then wrap_int w (factor * shape.getD i 0) else factor
    dimension_to_linear_index_loop w Dim coord shape fuel (i + 1) index1 factor1

/-- The function `internal::dimension_to_linear_index<Dim>(coord, shape)`. -/
def dimension_to_linear_index (w Dim : Nat) (coord shape : List Int) : Int :=
  dimension_to_linear_index_loop w Dim coord shape Dim 0 0 1

/-- Mixed-radix value of the digits `coord` for the extents `shape`, least significant digit
first. -/
def radix_encode : List Int → List Int → Int
  | c :: cs, s :: ss => c + s * radix_encode cs ss
  | _, _ => 0

/-- Mixed-radix digits of `index` for the extents `shape`, least significant digit first. -/
def radix_decode (index : Int) : List Int → List Int
  | [] => []
  | s :: ss => index % s :: radix_decode (index / s) ss

/-! ## The bin grid of `make_full_neighbour_list`

Reals are taken as rationals, in exact arithmetic.  The class `Box`, the lattice and the
particle container are declared outside the sources: the scaled (fractional) position of a
particle is a function argument, and the loops over the neighbouring boxes are left out.  The
body of the function holds no `throw` statement; `none` stands for a statement without defined
result (a conversion that does not fit, a write past the end of a vector). -/

/-- The conversion `static_cast<int>(x)` of a real: truncation toward zero. -/
def trunc_int (x : ℚ) : Int := if 0 ≤ x then ⌊x⌋ else ⌈x⌉

/-- The conversion `static_cast<int>(x)` into a signed integer of `w` bits: the truncation
toward zero when it fits, no result otherwise. -/
def static_cast_int (w : Nat) (x : ℚ) : Option Int :=
  if -2 ^ (w - 1) ≤ trunc_int x ∧ trunc_int x < 2 ^ (w - 1) then some (trunc_int x) else none

/-- The distance `face_dist_c` between the cell faces of an axis with the given reciprocal
length. -/
def face_dist (reciprocal_length : ℚ) : ℚ :=
  if reciprocal_length > 0 then 1 / reciprocal_length else 1

/-- The bin count `nbins_c[ii]` of one axis. -/
def nbins_axis (reciprocal_length bin_size : ℚ) : Int :=
  max (trunc_int (face_dist reciprocal_length / bin_size)) 1

/-- What the sizing loop computes: bin counts, search ranges and the total number of bins. -/
structure BinGrid where
  /-- Vector `nbins_c` -/
  nbins_c : List Int
  /-- Vector `neigh_search` -/
  neigh_search : List Int
  /-- Counter `nbins` -/
  nbins : Int
  deriving DecidableEq

/-- One turn of the sizing loop `for (int ii{0}; ii < dim; ++ii)`, with `t` the converted
quotient `static_cast<int>(face_dist_c / bin_size)` and `s` the converted search range.  The
quotient by a zero `bin_size` is not a finite number and has no conversion. -/
def bin_sizing_step (w : Nat) (bin_size : ℚ) (g : BinGrid) (reciprocal_length : ℚ) :
    Option BinGrid :=
  if bin_size = 0 then none
  else
    (static_cast_int w (face_dist reciprocal_length / bin_size)).bind (fun t =>
      (static_cast_int w
          ((⌈bin_size * ((max t 1 : Int) : ℚ) / face_dist reciprocal_length⌉ : Int) : ℚ)).bind
        (fun s =>
          some { nbins_c := g.nbins_c ++ [max t 1], neigh_search := g.neigh_search ++ [s],
                 nbins := wrap_int w (g.nbins * max t 1) }))

/-- The turns of the sizing loop over the reciprocal lengths of the axes. -/
def bin_sizing_loop (w : Nat) (bin_size : ℚ) : List ℚ → BinGrid → Option BinGrid
  | [], g => some g
  | reciprocal_length :: rest, g =>
    match bin_sizing_step w bin_size g reciprocal_length with
    | none => none
    | some g1 => bin_sizing_loop w bin_size rest g1

/-- The sizing loop of `make_full_neighbour_list` (l.632-651) over the reciprocal lengths that
`lattice.get_reciprocal_lenghts()` returned, started with `nbins = 1`. -/
def bin_sizing (w : Nat) (reciprocal_lengths : List ℚ) (bin_size : ℚ) : Option BinGrid :=
  bin_sizing_loop w bin_size reciprocal_lengths { nbins_c := [], neigh_search := [], nbins := 1 }

theorem incr_back_append_singleton (l : List Nat) (x : Nat) :
    incr_back (l ++ [x]) = l ++ [x + 1] := by
  induction l with
  | nil => rfl
  | cons a t ih =>
    cases t with
    | nil => rfl
    | cons b t2 =>
      simp only [List.cons_append] at ih ⊢
      show a :: incr_back (b :: (t2 ++ [x])) = _
      rw [ih]

theorem back_append_singleton (l : List Nat) (x : Nat) : back (l ++ [x]) = x := by
  simp [back, List.getLastD_eq_getLast?]

theorem mem_set_insert (x y : Nat) (s : List Nat) :
    y ∈ set_insert x s ↔ y = x ∨ y ∈ s := by
  induction s with
  | nil => simp [set_insert]
  | cons a t ih =>
    unfold set_insert
    split_ifs with h1 h2
    · simp
    · simp only [List.mem_cons, ih]; tauto
    · have hxa : x = a := by omega
      subst hxa
      simp

theorem set_insert_sorted (x : Nat) (s : List Nat) (hs : s.Sorted (· < ·)) :
    (set_insert x s).Sorted (· < ·) := by
  induction s with
  | nil => simp [set_insert]
  | cons a t ih =>
    unfold set_insert
    split_ifs with h1 h2
    · refine List.sorted_cons.mpr ⟨?_, hs⟩
      intro b hb
      rcases List.mem_cons.mp hb with rfl | hb
      · exact h1
      · exact lt_trans h1 (List.rel_of_sorted_cons hs b hb)
    · refine List.sorted_cons.mpr ⟨?_, ih (List.Sorted.of_cons hs)⟩
      intro b hb
      rcases (mem_set_insert x b t).mp hb with rfl | hb
      · exact h2
      · exact List.rel_of_sorted_cons hs b hb
    · exact hs

theorem collect_pairs_mem (last : Nat) (js s : List Nat) (y : Nat) :
    y ∈ collect_pairs last js s ↔ (last < y ∧ y ∈ js) ∨ y ∈ s := by
  unfold collect_pairs
  induction js generalizing s with
  | nil => simp
  | cons j t ih =>
    rw [List.foldl_cons, ih]
    by_cases h : j > last
    · simp only [h, if_true, mem_set_insert, List.mem_cons]
      constructor
      · rintro (⟨h1, h2⟩ | rfl | h3)
        · exact Or.inl ⟨h1, Or.inr h2⟩
        · exact Or.inl ⟨h, Or.inl rfl⟩
        · exact Or.inr h3
      · rintro (⟨h1, rfl | h2⟩ | h3)
        · exact Or.inr (Or.inl rfl)
        · exact Or.inl ⟨h1, h2⟩
        · exact Or.inr (Or.inr h3)
    · simp only [h, if_false, List.mem_cons]
      constructor
      · rintro (⟨h1, h2⟩ | h3)
        · exact Or.inl ⟨h1, Or.inr h2⟩
        · exact Or.inr h3
      · rintro (⟨h1, rfl | h2⟩ | h3)
        · exact absurd h1 h
        · exact Or.inl ⟨h1, h2⟩
        · exact Or.inr h3

theorem collect_pairs_sorted (last : Nat) (js s : List Nat) (hs : s.Sorted (· < ·)) :
    (collect_pairs last js s).Sorted (· < ·) := by
  unfold collect_pairs
  induction js generalizing s with
  | nil => simpa using hs
  | cons j t ih =>
    rw [List.foldl_cons]
    apply ih
    split_ifs
    · exact set_insert_sorted j s hs
    · exact hs

/-! ## Lemmas on the extension step -/

theorem collect_fold_spec (pairs : Nat → List Nat) (last : Nat) (l : List Nat)
    (acc : List Nat × List Nat) :
    (l.foldl (fun acc atom_index =>
        (acc.1 ++ [atom_index], collect_pairs last (pairs atom_index) acc.2)) acc).1
        = acc.1 ++ l ∧
    (∀ y, y ∈ (l.foldl (fun acc atom_index =>
        (acc.1 ++ [atom_index], collect_pairs last (pairs atom_index) acc.2)) acc).2
        ↔ (last < y ∧ ∃ a ∈ l, y ∈ pairs a) ∨ y ∈ acc.2) ∧
    (acc.2.Sorted (· < ·) → (l.foldl (fun acc atom_index =>
        (acc.1 ++ [atom_index], collect_pairs last (pairs atom_index) acc.2)) acc).2.Sorted
          (· < ·)) := by
  induction l generalizing acc with
  | nil => simp
  | cons a t ih =>
    rw [List.foldl_cons]
    obtain ⟨h1, h2, h3⟩ := ih (acc.1 ++ [a], collect_pairs last (pairs a) acc.2)
    refine ⟨by simpa using h1, ?_, ?_⟩
    · intro y
      rw [h2 y]
      simp only [collect_pairs_mem, List.mem_cons]
      constructor
      · rintro (⟨hl, b, hb, hy⟩ | ⟨hl, hy⟩ | hy)
        · exact Or.inl ⟨hl, b, Or.inr hb, hy⟩
        · exact Or.inl ⟨hl, a, Or.inl rfl, hy⟩
        · exact Or.inr hy
      · rintro (⟨hl, b, rfl | hb, hy⟩ | hy)
        · exact Or.inr (Or.inl ⟨hl, hy⟩)
        · exact Or.inl ⟨hl, b, hb, hy⟩
        · exact Or.inr (Or.inr hy)
    · intro hs
      exact h3 (collect_pairs_sorted last (pairs a) acc.2 hs)

theorem collect_atoms_fst (pairs : Nat → List Nat) (C : List Nat) :
    (collect_atoms pairs C).1 = C := by
  simpa [collect_atoms] using (collect_fold_spec pairs (back C) C ([], [])).1

theorem collect_atoms_snd_mem (pairs : Nat → List Nat) (C : List Nat) (y : Nat) :
    y ∈ (collect_atoms pairs C).2 ↔ back C < y ∧ ∃ a ∈ C, y ∈ pairs a := by
  simpa [collect_atoms] using (collect_fold_spec pairs (back C) C ([], [])).2.1 y

theorem collect_atoms_snd_sorted (pairs : Nat → List Nat) (C : List Nat) :
    (collect_atoms pairs C).2.Sorted (· < ·) := by
  simpa [collect_atoms] using (collect_fold_spec pairs (back C) C ([], [])).2.2

theorem set_difference_sublist (l1 l2 : List Nat) :
    (set_difference l1 l2).Sublist l1 := by
  induction l1 generalizing l2 with
  | nil => simp [set_difference]
  | cons x xs ih =>
    induction l2 with
    | nil => simp [set_difference]
    | cons y ys ih2 =>
      unfold set_difference
      split_ifs
      · exact (ih (y :: ys)).cons₂ x
      · exact ih2
      · exact (ih ys).cons x

theorem set_difference_eq_self (l1 l2 : List Nat) (h : ∀ x ∈ l1, ∀ y ∈ l2, y < x) :
    set_difference l1 l2 = l1 := by
  cases l1 with
  | nil => simp [set_difference]
  | cons x xs =>
    induction l2 with
    | nil => simp [set_difference]
    | cons y ys ih =>
      have hyx : y < x := h x (List.mem_cons_self _ _) y (List.mem_cons_self _ _)
      unfold set_difference
      rw [if_neg (by omega), if_pos hyx]
      exact ih (fun a ha b hb => h a ha b (List.mem_cons_of_mem _ hb))

theorem atoms_to_add_sublist (pairs : Nat → List Nat) (C : List Nat) :
    (atoms_to_add pairs C).Sublist (collect_atoms pairs C).2 :=
  set_difference_sublist _ _

theorem atoms_to_add_sorted (pairs : Nat → List Nat) (C : List Nat) :
    (atoms_to_add pairs C).Sorted (· < ·) :=
  List.Pairwise.sublist (atoms_to_add_sublist pairs C) (collect_atoms_snd_sorted pairs C)

theorem atoms_to_add_gt (pairs : Nat → List Nat) (C : List Nat) (j : Nat)
    (hj : j ∈ atoms_to_add pairs C) : back C < j ∧ ∃ a ∈ C, j ∈ pairs a :=
  (collect_atoms_snd_mem pairs C j).mp ((atoms_to_add_sublist pairs C).subset hj)

theorem le_back_of_sorted (C : List Nat) (hC : C.Sorted (· < ·)) (a : Nat) (ha : a ∈ C) :
    a ≤ back C := by
  induction C generalizing a with
  | nil => simp at ha
  | cons x t ih =>
    cases t with
    | nil =>
      simp only [List.mem_singleton] at ha
      subst ha
      simp [back]
    | cons y t2 =>
      have hb : back (x :: y :: t2) = back (y :: t2) := by simp [back]
      rw [hb]
      rcases List.mem_cons.mp ha with rfl | ha
      · have h1 : a < y := List.rel_of_sorted_cons hC y (List.mem_cons_self _ _)
        have h2 := ih (List.Sorted.of_cons hC) y (List.mem_cons_self _ _)
        omega
      · exact ih (List.Sorted.of_cons hC) a ha

theorem atoms_to_add_of_sorted (pairs : Nat → List Nat) (C : List Nat)
    (hC : C.Sorted (· < ·)) : atoms_to_add pairs C = (collect_atoms pairs C).2 := by
  unfold atoms_to_add
  apply set_difference_eq_self
  intro x hx y hy
  rw [collect_atoms_fst] at hy
  have h1 := ((collect_atoms_snd_mem pairs C x).mp hx).1
  have h2 := le_back_of_sorted C hC y hy
  omega

theorem foldl_add_neighbour (toAdd : List Nat) (m : AdaptorMaxOrder) (nb : List Nat) (c : Nat)
    (hnb : m.nb_neigh = nb ++ [c]) :
    toAdd.foldl (fun mm j => add_neighbour_of_cluster j mm) m =
      { m with neighbours := m.neighbours ++ toAdd, nb_neigh := nb ++ [c + toAdd.length] } := by
  induction toAdd generalizing m c with
  | nil => cases m; simp_all
  | cons j t ih =>
    rw [List.foldl_cons]
    rw [ih (add_neighbour_of_cluster j m) (c + 1)
      (by simp [add_neighbour_of_cluster, hnb, incr_back_append_singleton])]
    simp [add_neighbour_of_cluster]
    omega

theorem AddOrderLoop_true_loop_eq (pairs : Nat → List Nat) (C : List Nat)
    (m : AdaptorMaxOrder) :
    AddOrderLoop_true_loop pairs C m =
      { m with neighbours := m.neighbours ++ atoms_to_add pairs C,
               nb_neigh := m.nb_neigh ++ [(atoms_to_add pairs C).length] } := by
  unfold AddOrderLoop_true_loop
  dsimp only
  split_ifs with h
  · rw [foldl_add_neighbour _ _ m.nb_neigh 0 (by simp [add_entry_number_of_neighbours])]
    simp [add_entry_number_of_neighbours]
  · simp only [gt_iff_lt, List.length_pos, ne_eq, not_not] at h
    simp [add_entry_number_of_neighbours, h]

theorem back_eq_getLast (C : List Nat) (hne : C ≠ []) : back C = C.getLast hne := by
  simp [back, List.getLastD_eq_getLast?, List.getLast?_eq_getLast _ hne]

/-! ## Lemmas on the half neighbour list -/

theorem half_inner_loop_neighbours (within : Nat → Nat → Bool) (i : Nat) (js : List Nat)
    (st : AdaptorMaxOrder × Nat) :
    (half_inner_loop within i js st).1.neighbours
      = st.1.neighbours ++ js.filter (fun j => within i j) := by
  unfold half_inner_loop
  induction js generalizing st with
  | nil => simp
  | cons j t ih =>
    rw [List.foldl_cons, ih]
    by_cases h : within i j = true
    · simp [h]
    · simp [h]

theorem half_outer_step_neighbours (N : Nat) (within : Nat → Nat → Bool)
    (st : AdaptorMaxOrder × Nat) (i : Nat) :
    (half_outer_step N within st i).1.neighbours
      = st.1.neighbours ++ (List.range' (i + 1) (N - (i + 1))).filter (fun j => within i j) := by
  simp [half_outer_step, half_inner_loop_neighbours, add_atom]

theorem half_outer_fold_neighbours (N : Nat) (within : Nat → Nat → Bool) (l : List Nat)
    (st : AdaptorMaxOrder × Nat) :
    (l.foldl (half_outer_step N within) st).1.neighbours
      = st.1.neighbours ++
        l.flatMap (fun i => (List.range' (i + 1) (N - (i + 1))).filter (fun j => within i j)) := by
  induction l generalizing st with
  | nil => simp
  | cons i t ih =>
    rw [List.foldl_cons, ih, half_outer_step_neighbours]
    simp

theorem half_list_run_sorted (N : Nat) (within : Nat → Nat → Bool) (i : Nat) :
    (half_list_run N within i).Sorted (· < ·) :=
  List.Pairwise.sublist (List.filter_sublist _) (List.pairwise_lt_range' (i + 1) (N - (i + 1)))

/-! ## Lemmas on recorded clusters -/

theorem sorted_append_singleton (C : List Nat) (j : Nat) (hC : C.Sorted (· < ·))
    (hj : back C < j) : (C ++ [j]).Sorted (· < ·) := by
  refine List.pairwise_append.mpr ⟨hC, List.pairwise_singleton _ _, ?_⟩
  intro a ha b hb
  rw [List.mem_singleton] at hb
  have := le_back_of_sorted C hC a ha
  omega

theorem mem_extend_clusters (pairs : Nat → List Nat) (clusters : List (List Nat))
    (D : List Nat) :
    D ∈ extend_clusters pairs clusters ↔
      ∃ C ∈ clusters, ∃ j ∈ atoms_to_add pairs C, D = C ++ [j] := by
  simp only [extend_clusters, List.mem_flatMap, List.mem_map]
  constructor
  · rintro ⟨C, hC, j, hj, rfl⟩
    exact ⟨C, hC, j, hj, rfl⟩
  · rintro ⟨C, hC, j, hj, rfl⟩
    exact ⟨C, hC, j, hj, rfl⟩

theorem extend_clusters_sorted (pairs : Nat → List Nat) (clusters : List (List Nat))
    (h : ∀ C ∈ clusters, C.Sorted (· < ·)) :
    ∀ D ∈ extend_clusters pairs clusters, D.Sorted (· < ·) := by
  intro D hD
  obtain ⟨C, hC, j, hj, rfl⟩ := (mem_extend_clusters pairs clusters D).mp hD
  exact sorted_append_singleton C j (h C hC) (atoms_to_add_gt pairs C j hj).1

theorem extend_clusters_nodup (pairs : Nat → List Nat) (clusters : List (List Nat))
    (h : clusters.Nodup) : (extend_clusters pairs clusters).Nodup := by
  unfold extend_clusters
  rw [List.nodup_flatMap]
  constructor
  · intro C _
    refine List.Nodup.map ?_ (atoms_to_add_sorted pairs C).nodup
    intro a b hab
    simpa using hab
  · refine List.Pairwise.imp ?_ h
    intro C1 C2 hne
    simp only [Function.onFun, List.disjoint_left, List.mem_map]
    rintro D ⟨j1, _, rfl⟩ ⟨j2, _, h2⟩
    exact hne (List.append_inj_left' h2 rfl).symm

theorem sorted_eq_of_toFinset_eq (C D : List Nat) (hC : C.Sorted (· < ·))
    (hD : D.Sorted (· < ·)) (h : C.toFinset = D.toFinset) : C = D :=
  List.eq_of_perm_of_sorted
    ((List.perm_ext_iff_of_nodup hC.nodup hD.nodup).mpr (fun a => by
      have := congrArg (fun s => a ∈ s) h
      simpa using this)) hC hD

theorem map_toFinset_nodup (clusters : List (List Nat)) (h : ∀ C ∈ clusters, C.Sorted (· < ·))
    (hnd : clusters.Nodup) : (clusters.map List.toFinset).Nodup :=
  List.Nodup.map_on (fun C hC D hD hCD => sorted_eq_of_toFinset_eq C D (h C hC) (h D hD) hCD)
    hnd

theorem extend_clusters_distinct_atom_sets (pairs : Nat → List Nat)
    (clusters : List (List Nat)) (hcanon : ∀ C ∈ clusters, C.Sorted (· < ·))
    (hnd : clusters.Nodup) : ((extend_clusters pairs clusters).map List.toFinset).Nodup :=
  map_toFinset_nodup _ (extend_clusters_sorted pairs clusters hcanon)
    (extend_clusters_nodup pairs clusters hnd)

theorem extend_clusters_eq_zip (pairs : Nat → List Nat) (clusters : List (List Nat)) :
    extend_clusters pairs clusters
      = (List.zip clusters (clusters.map (atoms_to_add pairs))).flatMap
          (fun p => p.2.map (fun j => p.1 ++ [j])) := by
  induction clusters with
  | nil => rfl
  | cons C t ih =>
    simp only [extend_clusters] at ih
    simp [extend_clusters, ih]

theorem not_mem_set_difference_head (a : Nat) (l1 l2 : List Nat) (h1 : l1.Sorted (· < ·)) :
    a ∉ set_difference l1 (a :: l2) := by
  induction l1 with
  | nil => simp [set_difference]
  | cons x xs ih =>
    unfold set_difference
    split_ifs with hxa hax
    · intro hmem
      rcases List.mem_cons.mp hmem with rfl | hmem
      · omega
      · exact ih (List.Sorted.of_cons h1) hmem
    · intro hmem
      rcases List.mem_cons.mp ((set_difference_sublist (x :: xs) l2).subset hmem) with rfl | hm
      · omega
      · have := List.rel_of_sorted_cons h1 a hm
        omega
    · intro hmem
      have := List.rel_of_sorted_cons h1 a ((set_difference_sublist xs l2).subset hmem)
      omega

theorem atoms_to_add_not_mem (pairs : Nat → List Nat) (a : Nat) (t : List Nat)
    (ht : t.Sorted (· < ·)) : ∀ j ∈ atoms_to_add pairs (a :: t), j ∉ a :: t := by
  intro j hj hmem
  have hgt := (atoms_to_add_gt pairs (a :: t) j hj).1
  rcases List.mem_cons.mp hmem with rfl | hjt
  · unfold atoms_to_add at hj
    dsimp only at hj
    rw [collect_atoms_fst] at hj
    exact not_mem_set_difference_head j _ t (collect_atoms_snd_sorted pairs (j :: t)) hj
  · cases t with
    | nil => simp at hjt
    | cons b t2 =>
      have hb : back (a :: b :: t2) = back (b :: t2) := by simp [back]
      have := le_back_of_sorted (b :: t2) ht j hjt
      omega

/-! ## Lemmas on the pass over the wrapped manager -/

theorem record_clusters_nil (pairs : Nat → List Nat) (m : AdaptorMaxOrder) :
    record_clusters pairs [] m = m := by
  cases m; simp [record_clusters]

theorem record_clusters_append (pairs : Nat → List Nat) (A B : List (List Nat))
    (m : AdaptorMaxOrder) :
    record_clusters pairs (A ++ B) m = record_clusters pairs B (record_clusters pairs A m) := by
  simp [record_clusters]

theorem foldl_record_clusters {α : Type} (pairs : Nat → List Nat)
    (f : α → AdaptorMaxOrder → AdaptorMaxOrder) (g : α → List (List Nat))
    (hf : ∀ a m, f a m = record_clusters pairs (g a) m) (l : List α) (m : AdaptorMaxOrder) :
    l.foldl (fun mm a => f a mm) m = record_clusters pairs (l.flatMap g) m := by
  induction l generalizing m with
  | nil => simp [record_clusters_nil]
  | cons a t ih =>
    rw [List.foldl_cons, ih, hf, List.flatMap_cons, record_clusters_append]

theorem AddOrderLoop_loop_eq (mi : ManagerImplementation) (depth : Nat) (cluster : List Nat)
    (m : AdaptorMaxOrder) :
    AddOrderLoop_loop mi depth cluster m
      = record_clusters mi.pairs (visited_clusters mi depth cluster) m := by
  induction depth generalizing cluster m with
  | zero =>
    simp [AddOrderLoop_loop, visited_clusters, AddOrderLoop_true_loop_eq, record_clusters]
  | succ d ih =>
    simp only [AddOrderLoop_loop, visited_clusters]
    exact foldl_record_clusters mi.pairs
      (fun j mm => AddOrderLoop_loop mi d (cluster ++ [j]) mm)
      (fun j => visited_clusters mi d (cluster ++ [j]))
      (fun j mm => ih (cluster ++ [j]) mm) (mi.children cluster) m

theorem increase_maxorder_eq (MaxOrder : Nat) (mi : ManagerImplementation)
    (m : AdaptorMaxOrder) :
    increase_maxorder MaxOrder mi m
      = set_offsets (record_clusters mi.pairs (parent_clusters MaxOrder mi) m) := by
  unfold increase_maxorder parent_clusters
  rw [foldl_record_clusters mi.pairs
      (fun atom mm => AddOrderLoop_loop mi (MaxOrder - 1 - 1) [atom] mm)
      (fun atom => visited_clusters mi (MaxOrder - 1 - 1) [atom])
      (fun atom mm => AddOrderLoop_loop_eq mi (MaxOrder - 1 - 1) [atom] mm)]

/-! ## Lemmas on `set_offsets` -/

theorem set_offsets_loop_eq (nb : List Nat) (fuel i : Nat) (pre : List Nat) (last : Nat)
    (hpre : pre.length = i) (hfuel : i + fuel = nb.length) :
    set_offsets_loop nb fuel i (pre ++ [last])
      = pre ++ List.scanl (· + ·) last (nb.drop i) := by
  induction fuel generalizing i pre last with
  | zero =>
    have : nb.drop i = [] := List.drop_eq_nil_of_le (by omega)
    simp [set_offsets_loop, this]
  | succ fuel ih =>
    have hi : i < nb.length := by omega
    have h1 : (pre ++ [last]).getD i 0 = last := by
      rw [List.getD_append_right _ _ _ _ (by omega)]
      simp [hpre]
    have h2 : nb.getD i 0 = nb[i] := List.getD_eq_getElem _ _ hi
    rw [set_offsets_loop, h1, h2,
      ih (i + 1) (pre ++ [last]) (last + nb[i]) (by simp [hpre]) (by omega),
      List.drop_eq_getElem_cons hi, List.scanl_cons]
    simp

theorem resize_one (v : List Nat) : resize 1 v = [v.headD 0] := by
  cases v with
  | nil => rfl
  | cons a t => simp [resize]

theorem set_offsets_offsets (m : AdaptorMaxOrder) :
    (set_offsets m).offsets = List.scanl (· + ·) (m.offsets.headD 0) m.nb_neigh := by
  have := set_offsets_loop_eq m.nb_neigh m.nb_neigh.length 0 [] (m.offsets.headD 0) rfl
    (by simp)
  simpa [set_offsets, resize_one] using this

theorem scanl_add_getD_zero (b : Nat) (l : List Nat) :
    (List.scanl (· + ·) b l).getD 0 0 = b := by
  cases l <;> simp [List.scanl]

theorem scanl_add_getD_succ (b : Nat) (l : List Nat) (i : Nat) (hi : i < l.length) :
    (List.scanl (· + ·) b l).getD (i + 1) 0
      = (List.scanl (· + ·) b l).getD i 0 + l.getD i 0 := by
  induction l generalizing b i with
  | nil => simp at hi
  | cons a t ih =>
    rw [List.scanl_cons]
    cases i with
    | zero => simp [scanl_add_getD_zero]
    | succ k =>
      have hk : k < t.length := by simpa using hi
      simpa using ih (b + a) k hk

theorem scanl_add_sorted (b : Nat) (l : List Nat) :
    (List.scanl (· + ·) b l).Sorted (· ≤ ·) ∧ ∀ x ∈ List.scanl (· + ·) b l, b ≤ x := by
  induction l generalizing b with
  | nil => simp [List.scanl]
  | cons a t ih =>
    rw [List.scanl_cons]
    obtain ⟨h1, h2⟩ := ih (b + a)
    constructor
    · simp only [List.singleton_append]
      refine List.sorted_cons.mpr ⟨?_, h1⟩
      intro x hx
      have := h2 x hx
      omega
    · intro x hx
      simp only [List.singleton_append, List.mem_cons] at hx
      rcases hx with rfl | hx
      · exact le_rfl
      · have := h2 x hx
        omega

theorem scanl_add_getLast (b : Nat) (l : List Nat) :
    (List.scanl (· + ·) b l).getLast? = some (b + l.sum) := by
  induction l generalizing b with
  | nil => simp [List.scanl]
  | cons a t ih =>
    rw [List.scanl_cons, List.getLast?_append, ih (b + a)]
    simp [Nat.add_assoc]

theorem offsetsWritten_headD (o : List Nat) (h : OffsetsWritten o) : o.headD 0 = 0 := by
  induction h with
  | constructed => rfl
  | by_set_offsets m _ ih =>
    rw [set_offsets_offsets, ih]
    cases m.nb_neigh <;> simp [List.scanl]

/-! ## Claims -/

/-- C1: for a cluster `C` with strictly increasing atom indices and any order-2 neighbour
relation `pairs`, the extension step appends to `neighbours` a duplicate-free run made of
exactly the atoms `j` greater than the last atom of `C` that are a neighbour of some atom of
`C`, and appends to `nb_neigh` one entry, the number of these atoms. -/
theorem extension_step_children (pairs : Nat → List Nat) (C : List Nat) (m : AdaptorMaxOrder)
    (hne : C ≠ []) (hC : C.Sorted (· < ·)) :
    ∃ added : List Nat,
      (AddOrderLoop_true_loop pairs C m).neighbours = m.neighbours ++ added ∧
      added.Nodup ∧
      (∀ j, j ∈ added ↔ C.getLast hne < j ∧ ∃ a ∈ C, j ∈ pairs a) ∧
      (AddOrderLoop_true_loop pairs C m).nb_neigh = m.nb_neigh ++
        [((C.flatMap pairs).toFinset.filter (fun j => C.getLast hne < j)).card] := by
  have hmem : ∀ j, j ∈ atoms_to_add pairs C ↔ C.getLast hne < j ∧ ∃ a ∈ C, j ∈ pairs a := by
    intro j
    rw [atoms_to_add_of_sorted pairs C hC, collect_atoms_snd_mem, back_eq_getLast C hne]
  have hnd : (atoms_to_add pairs C).Nodup := (atoms_to_add_sorted pairs C).nodup
  refine ⟨atoms_to_add pairs C, ?_, hnd, hmem, ?_⟩
  · rw [AddOrderLoop_true_loop_eq]
  · rw [AddOrderLoop_true_loop_eq]
    have hset : (atoms_to_add pairs C).toFinset =
        (C.flatMap pairs).toFinset.filter (fun j => C.getLast hne < j) := by
      ext j
      simp only [List.mem_toFinset, Finset.mem_filter, List.mem_flatMap, hmem]
      tauto
    rw [← hset, List.toFinset_card_of_nodup hnd]

/-- Witness of C1: the pair `(0, 1)` with neighbour lists `a ↦ [a + 1]` on a fresh layer. -/
theorem extension_step_children_witness :
    ∃ added : List Nat,
      (AddOrderLoop_true_loop (fun a => [a + 1]) [0, 1] AdaptorMaxOrder.fresh).neighbours
        = AdaptorMaxOrder.fresh.neighbours ++ added ∧
      added.Nodup ∧
      (∀ j, j ∈ added ↔ [0, 1].getLast (by decide) < j ∧ ∃ a ∈ [0, 1], j ∈ (fun a => [a + 1]) a) ∧
      (AddOrderLoop_true_loop (fun a => [a + 1]) [0, 1] AdaptorMaxOrder.fresh).nb_neigh
        = AdaptorMaxOrder.fresh.nb_neigh ++
        [(([0, 1].flatMap (fun a => [a + 1])).toFinset.filter
            (fun j => [0, 1].getLast (by decide) < j)).card] :=
  extension_step_children (fun a => [a + 1]) [0, 1] AdaptorMaxOrder.fresh (by decide)
    (by decide)


/-- C2: after `update()` of an order-2 layer over `N >= 1` atoms, `neighbours` is the
concatenation, for `i = 0, ..., N - 2` in ascending order, of the atoms `j > i` within the
cutoff of `i`, listed in ascending `j`.  So for `i < j < N` the atom `j` is in the run of `i`
exactly when the pair is within the cutoff, and a pair beyond the cutoff is in the run of
neither atom. -/
theorem half_list_neighbours (N : Nat) (within : Nat → Nat → Bool) (m : AdaptorMaxOrder)
    (_hN : 1 ≤ N) :
    (update_order2 N within m).neighbours
      = (List.range (N - 1)).flatMap
          (fun i => (List.range' (i + 1) (N - (i + 1))).filter (fun j => within i j)) ∧
    (∀ i, ((List.range' (i + 1) (N - (i + 1))).filter (fun j => within i j)).Sorted (· < ·)) ∧
    (∀ i j, j ∈ (List.range' (i + 1) (N - (i + 1))).filter (fun j => within i j)
        ↔ i < j ∧ j < N ∧ within i j = true) ∧
    (∀ i j, i < j → j < N → within i j = false →
        j ∉ (List.range' (i + 1) (N - (i + 1))).filter (fun k => within i k) ∧
        i ∉ (List.range' (j + 1) (N - (j + 1))).filter (fun k => within j k)) := by
  have hmem : ∀ i j, j ∈ (List.range' (i + 1) (N - (i + 1))).filter (fun j => within i j)
      ↔ i < j ∧ j < N ∧ within i j = true := by
    intro i j
    simp only [List.mem_filter, List.mem_range'_1]
    constructor
    · rintro ⟨⟨h1, h2⟩, h3⟩
      exact ⟨by omega, by omega, h3⟩
    · rintro ⟨h1, h2, h3⟩
      exact ⟨⟨by omega, by omega⟩, h3⟩
  refine ⟨?_, ?_, hmem, ?_⟩
  · simp [update_order2, increase_maxorder_true, make_half_neighbour_list,
      half_outer_fold_neighbours, resize]
  · intro i
    exact List.Pairwise.sublist (List.filter_sublist _)
      (List.pairwise_lt_range' (i + 1) (N - (i + 1)))
  · intro i j hij hj hw
    constructor
    · intro h
      have := ((hmem i j).mp h).2.2
      simp [hw] at this
    · intro h
      have := ((hmem j i).mp h).1
      omega

/-- Witness of C2: three atoms, only the pair `(0, 1)` within the cutoff. -/
theorem half_list_neighbours_witness :
    (update_order2 3 (fun i j => decide (i = 0 ∧ j = 1)) AdaptorMaxOrder.fresh).neighbours
      = [1] :=
  (half_list_neighbours 3 (fun i j => decide (i = 0 ∧ j = 1)) AdaptorMaxOrder.fresh
    (by decide)).1.trans (by decide)


/-- C3 (what the code does): on three atoms with only the pair `(0, 1)` within the cutoff,
`update()` of the order-2 layer leaves `offsets = [1, 1, 2, 2, 1]`, of length `5` and not
`N + 1 = 4`, with `neighbours = [1]`; the read `neighbours[offsets[0] + 0]` made by
`get_cluster_neighbour` for atom `0` falls past the end of `neighbours` instead of giving atom
`1`. -/
theorem half_list_offsets_scenario :
    (update_order2 3 (fun i j => decide (i = 0 ∧ j = 1)) AdaptorMaxOrder.fresh).offsets
      = [1, 1, 2, 2, 1] ∧
    (update_order2 3 (fun i j => decide (i = 0 ∧ j = 1)) AdaptorMaxOrder.fresh).neighbours
      = [1] ∧
    get_cluster_neighbour
      (update_order2 3 (fun i j => decide (i = 0 ∧ j = 1)) AdaptorMaxOrder.fresh) 0 0
      = none := by
  decide

/-- C4 (what the code does): on two atoms farther apart than the cutoff, `update()` of the
order-2 layer leaves `offsets = [1, 1, 0]`, so `offsets[0]` is `1`, and `nb_neigh = [1, 0]`, so
`get_cluster_size` answers `1` for atom `0`, which has no atom within the cutoff. -/
theorem half_list_counts_scenario :
    (update_order2 2 (fun _ _ => false) AdaptorMaxOrder.fresh).offsets = [1, 1, 0] ∧
    (update_order2 2 (fun _ _ => false) AdaptorMaxOrder.fresh).nb_neigh = [1, 0] ∧
    get_cluster_size (update_order2 2 (fun _ _ => false) AdaptorMaxOrder.fresh) 0 = some 1 ∧
    (half_list_run 2 (fun _ _ => false) 0).length = 0 := by
  decide

/-- C6 (counterexample): for the cluster `(7, 5, 2)`, with atom `5` a neighbour of atom `2`,
the extension step appends atom `5`, an atom of the cluster. -/
theorem extension_step_repeats_atom :
    (AddOrderLoop_true_loop (fun a => if a = 2 then [5] else []) [7, 5, 2]
      AdaptorMaxOrder.fresh).neighbours = [5] ∧ 5 ∈ [7, 5, 2] := by
  constructor
  · simp [AddOrderLoop_true_loop, atoms_to_add, collect_atoms, collect_pairs, set_insert, back,
      set_difference, add_entry_number_of_neighbours, add_neighbour_of_cluster,
      AdaptorMaxOrder.fresh]
  · decide

/-- C6 (amended): for a cluster whose atom indices after the first are strictly increasing,
and any order-2 neighbour relation, no atom appended as a child of the cluster is an atom of
the cluster. -/
theorem extension_step_no_repeated_atom (pairs : Nat → List Nat) (a : Nat) (t : List Nat)
    (m : AdaptorMaxOrder) (ht : t.Sorted (· < ·)) :
    ∃ added : List Nat,
      (AddOrderLoop_true_loop pairs (a :: t) m).neighbours = m.neighbours ++ added ∧
      ∀ j ∈ added, j ∉ a :: t := by
  refine ⟨atoms_to_add pairs (a :: t), ?_, atoms_to_add_not_mem pairs a t ht⟩
  rw [AddOrderLoop_true_loop_eq]

/-- Witness of C6 (amended): the cluster `(5, 1, 3)`, whose tail `(1, 3)` is increasing. -/
theorem extension_step_no_repeated_atom_witness :
    ∃ added : List Nat,
      (AddOrderLoop_true_loop (fun _ => [4, 5]) (5 :: [1, 3]) AdaptorMaxOrder.fresh).neighbours
        = AdaptorMaxOrder.fresh.neighbours ++ added ∧
      ∀ j ∈ added, j ∉ 5 :: [1, 3] :=
  extension_step_no_repeated_atom (fun _ => [4, 5]) 5 [1, 3] AdaptorMaxOrder.fresh (by decide)

/-- C8: one pass `increase_maxorder` on a freshly constructed layer leaves in `nb_neigh` exactly
one entry per parent cluster, in visiting order, each the length of the run recorded for that
parent, and in `neighbours` the concatenation of the runs; each extension step appends exactly
one entry to `nb_neigh`, and a parent without candidates gets the entry `0` and leaves
`neighbours` as it was. -/
theorem dense_layout (MaxOrder : Nat) (mi : ManagerImplementation) (_hMax : 2 < MaxOrder) :
    (increase_maxorder MaxOrder mi AdaptorMaxOrder.fresh).nb_neigh
      = (parent_clusters MaxOrder mi).map (fun C => (atoms_to_add mi.pairs C).length) ∧
    (increase_maxorder MaxOrder mi AdaptorMaxOrder.fresh).nb_neigh.length
      = (parent_clusters MaxOrder mi).length ∧
    (increase_maxorder MaxOrder mi AdaptorMaxOrder.fresh).neighbours
      = (parent_clusters MaxOrder mi).flatMap (atoms_to_add mi.pairs) ∧
    (∀ C m, (AddOrderLoop_true_loop mi.pairs C m).nb_neigh.length = m.nb_neigh.length + 1) ∧
    (∀ C m, atoms_to_add mi.pairs C = [] →
      (AddOrderLoop_true_loop mi.pairs C m).nb_neigh = m.nb_neigh ++ [0] ∧
      (AddOrderLoop_true_loop mi.pairs C m).neighbours = m.neighbours) := by
  refine ⟨?_, ?_, ?_, ?_, ?_⟩
  · simp [increase_maxorder_eq, set_offsets, record_clusters, AdaptorMaxOrder.fresh]
  · simp [increase_maxorder_eq, set_offsets, record_clusters, AdaptorMaxOrder.fresh]
  · simp [increase_maxorder_eq, set_offsets, record_clusters, AdaptorMaxOrder.fresh]
  · intro C m
    simp [AddOrderLoop_true_loop_eq]
  · intro C m h
    simp [AddOrderLoop_true_loop_eq, h]

/-- Witness of C8: an order-3 layer over four atoms in a line with pairs `(0,1)`, `(1,2)`,
`(2,3)`. -/
theorem dense_layout_witness :
    (increase_maxorder 3
        { atoms := [0, 1, 2, 3],
          children := fun c => if c.length = 1 ∧ back c < 3 then [back c + 1] else [],
          pairs := fun a => if a < 3 then [a + 1] else [] }
        AdaptorMaxOrder.fresh).nb_neigh = [1, 1, 0] :=
  (dense_layout 3
    { atoms := [0, 1, 2, 3],
      children := fun c => if c.length = 1 ∧ back c < 3 then [back c + 1] else [],
      pairs := fun a => if a < 3 then [a + 1] else [] } (by decide)).1.trans
    (by simp [parent_clusters, visited_clusters, back, atoms_to_add, collect_atoms,
      collect_pairs, set_insert, set_difference])

/-- C9: called on a layer whose `offsets` is empty or was left by an earlier `set_offsets`,
`set_offsets` leaves `offsets` of length `nb_neigh.size() + 1`, with `offsets[0] = 0` and, for
every `i < nb_neigh.size()`, `offsets[i+1] = offsets[i] + nb_neigh[i]`, so that
`offsets[i+1] - offsets[i] = nb_neigh[i]`. -/
theorem set_offsets_prefix_sum (m : AdaptorMaxOrder) (h : OffsetsWritten m.offsets) :
    (set_offsets m).offsets.length = (set_offsets m).nb_neigh.length + 1 ∧
    (set_offsets m).offsets[0]? = some 0 ∧
    (∀ i, i < (set_offsets m).nb_neigh.length →
      (set_offsets m).offsets.getD (i + 1) 0
        = (set_offsets m).offsets.getD i 0 + (set_offsets m).nb_neigh.getD i 0 ∧
      (set_offsets m).offsets.getD (i + 1) 0 - (set_offsets m).offsets.getD i 0
        = (set_offsets m).nb_neigh.getD i 0) := by
  have hnb : (set_offsets m).nb_neigh = m.nb_neigh := rfl
  have h0 := offsetsWritten_headD m.offsets h
  rw [hnb, set_offsets_offsets, h0]
  refine ⟨List.length_scanl _ _, ?_, ?_⟩
  · cases m.nb_neigh <;> simp [List.scanl]
  · intro i hi
    have := scanl_add_getD_succ 0 m.nb_neigh i hi
    exact ⟨this, by omega⟩

/-- Witness of C9: a layer with `nb_neigh = [1, 2, 0]` and empty `offsets`. -/
theorem set_offsets_prefix_sum_witness :
    (set_offsets { AdaptorMaxOrder.fresh with nb_neigh := [1, 2, 0] }).offsets.length
      = (set_offsets { AdaptorMaxOrder.fresh with nb_neigh := [1, 2, 0] }).nb_neigh.length + 1 :=
  (set_offsets_prefix_sum { AdaptorMaxOrder.fresh with nb_neigh := [1, 2, 0] }
    OffsetsWritten.constructed).1

/-- C10: after `update()` on a freshly constructed extension layer, `offsets` is non-decreasing
and its last entry equals the length of `neighbours`. -/
theorem extension_layer_csr (MaxOrder : Nat) (mi : ManagerImplementation)
    (_hMax : 2 < MaxOrder) :
    (update MaxOrder mi AdaptorMaxOrder.fresh).offsets.Sorted (· ≤ ·) ∧
    (update MaxOrder mi AdaptorMaxOrder.fresh).offsets.getLast?
      = some (update MaxOrder mi AdaptorMaxOrder.fresh).neighbours.length := by
  unfold update
  rw [increase_maxorder_eq, set_offsets_offsets]
  constructor
  · exact (scanl_add_sorted _ _).1
  · rw [scanl_add_getLast]
    simp [set_offsets, record_clusters, AdaptorMaxOrder.fresh, List.length_flatMap,
      Function.comp_def]

/-- Witness of C10: an order-3 layer over four atoms in a line with pairs `(0,1)`, `(1,2)`,
`(2,3)`. -/
theorem extension_layer_csr_witness :
    (update 3
        { atoms := [0, 1, 2, 3],
          children := fun c => if c.length = 1 ∧ back c < 3 then [back c + 1] else [],
          pairs := fun a => if a < 3 then [a + 1] else [] }
        AdaptorMaxOrder.fresh).offsets.Sorted (· ≤ ·) :=
  (extension_layer_csr 3
    { atoms := [0, 1, 2, 3],
      children := fun c => if c.length = 1 ∧ back c < 3 then [back c + 1] else [],
      pairs := fun a => if a < 3 then [a + 1] else [] } (by decide)).1


/-! ## Lemmas on the chain queries -/

theorem chain_get_nb_clusters_one (bottom : StructureManagerCenters)
    (layers : List AdaptorMaxOrder) :
    chain_get_nb_clusters bottom layers 1 = Except.ok bottom.natoms := by
  induction layers with
  | nil => simp [chain_get_nb_clusters, StructureManagerCenters.get_nb_clusters]
  | cons top below ih =>
    have h : ¬ (1 = below.length + 2) := by omega
    simp [chain_get_nb_clusters, get_nb_clusters, h, ih]

theorem chain_get_nb_clusters_own (bottom : StructureManagerCenters)
    (layers : List AdaptorMaxOrder) (k : Nat) (h2 : 2 ≤ k) (hk : k ≤ layers.length + 1) :
    ∃ L, layers[layers.length + 1 - k]? = some L ∧
      chain_get_nb_clusters bottom layers k = Except.ok L.neighbours.length := by
  induction layers with
  | nil => simp at hk; omega
  | cons top below ih =>
    by_cases h : k = below.length + 2
    · refine ⟨top, ?_, ?_⟩
      · simp [h]
      · simp [chain_get_nb_clusters, get_nb_clusters, h]
    · have hk2 : k ≤ below.length + 1 := by simp at hk; omega
      obtain ⟨L, hL, hq⟩ := ih hk2
      refine ⟨L, ?_, ?_⟩
      · have hidx : (top :: below).length + 1 - k = (below.length + 1 - k) + 1 := by
          simp; omega
        rw [hidx, List.getElem?_cons_succ]
        exact hL
      · simp [chain_get_nb_clusters, get_nb_clusters, h, hq]

theorem chain_get_nb_clusters_error (bottom : StructureManagerCenters)
    (layers : List AdaptorMaxOrder) (k : Nat) (hk : k = 0 ∨ layers.length + 1 < k) :
    chain_get_nb_clusters bottom layers k
      = Except.error "Can only handle atoms and pairs, use adaptor to increase MaxOrder." := by
  induction layers with
  | nil =>
    have h : k ≠ 1 := by simp at hk; omega
    simp [chain_get_nb_clusters, StructureManagerCenters.get_nb_clusters, h]
  | cons top below ih =>
    have h : ¬ (k = below.length + 2) := by simp at hk; omega
    have hk2 : k = 0 ∨ below.length + 1 < k := by simp at hk; omega
    simp [chain_get_nb_clusters, get_nb_clusters, h, ih hk2]

theorem scanl_add_getElem? (b : Nat) (l : List Nat) (a : Nat) (ha : a ≤ l.length) :
    (List.scanl (· + ·) b l)[a]? = some (b + (l.take a).sum) := by
  induction l generalizing b a with
  | nil =>
    have : a = 0 := by simpa using ha
    subst this
    simp [List.scanl]
  | cons x t ih =>
    rw [List.scanl_cons]
    cases a with
    | zero => simp
    | succ n =>
      have hn : n ≤ t.length := by simpa using ha
      simp [ih (b + x) n hn, Nat.add_assoc]

/-! ## Lemmas on the scenarios -/

theorem update_fresh_offsets_getElem? (MaxOrder : Nat) (mi : ManagerImplementation) (a : Nat)
    (ha : a ≤ (parent_clusters MaxOrder mi).length) :
    (update MaxOrder mi AdaptorMaxOrder.fresh).offsets[a]?
      = some (((parent_clusters MaxOrder mi).take a).flatMap (atoms_to_add mi.pairs)).length := by
  unfold update
  rw [increase_maxorder_eq, set_offsets_offsets]
  simp only [record_clusters, AdaptorMaxOrder.fresh, List.nil_append, List.headD_nil]
  rw [scanl_add_getElem? _ _ _ (by simpa using ha)]
  simp [List.length_flatMap, Function.comp_def, List.map_take]

theorem line_parent_clusters :
    parent_clusters 3 (pair_manager [0, 1, 2, 3] (fun a => if a < 3 then [a + 1] else []))
      = [[0, 1], [1, 2], [2, 3]] := by
  decide

theorem line_atoms_to_add :
    atoms_to_add (fun a => if a < 3 then [a + 1] else []) [0, 1] = [2] ∧
    atoms_to_add (fun a => if a < 3 then [a + 1] else []) [1, 2] = [3] ∧
    atoms_to_add (fun a => if a < 3 then [a + 1] else []) [2, 3] = [] := by
  refine ⟨?_, ?_, ?_⟩ <;>
    (rw [atoms_to_add_of_sorted _ _ (by decide)]; decide)

theorem line_update (m : AdaptorMaxOrder) :
    update 3 (pair_manager [0, 1, 2, 3] (fun a => if a < 3 then [a + 1] else [])) m
      = set_offsets { m with neighbours := m.neighbours ++ [2, 3],
                             nb_neigh := m.nb_neigh ++ [1, 1, 0] } := by
  unfold update
  rw [increase_maxorder_eq, line_parent_clusters]
  have hp : (pair_manager [0, 1, 2, 3] (fun a => if a < 3 then [a + 1] else [])).pairs
      = (fun a => if a < 3 then [a + 1] else []) := rfl
  obtain ⟨h1, h2, h3⟩ := line_atoms_to_add
  simp [record_clusters, hp, h1, h2, h3]

theorem full4_parent_clusters :
    parent_clusters 3 (pair_manager [0, 1, 2, 3] (half_list_run 4 (fun _ _ => true)))
      = [[0, 1], [0, 2], [0, 3], [1, 2], [1, 3], [2, 3]] := by
  decide

theorem full4_atoms_to_add :
    atoms_to_add (half_list_run 4 (fun _ _ => true)) [0, 1] = [2, 3] ∧
    atoms_to_add (half_list_run 4 (fun _ _ => true)) [0, 2] = [3] ∧
    atoms_to_add (half_list_run 4 (fun _ _ => true)) [0, 3] = [] ∧
    atoms_to_add (half_list_run 4 (fun _ _ => true)) [1, 2] = [3] ∧
    atoms_to_add (half_list_run 4 (fun _ _ => true)) [1, 3] = [] ∧
    atoms_to_add (half_list_run 4 (fun _ _ => true)) [2, 3] = [] := by
  refine ⟨?_, ?_, ?_, ?_, ?_, ?_⟩ <;>
    (rw [atoms_to_add_of_sorted _ _ (by decide)]; decide)

theorem full4_update :
    update 3 (pair_manager [0, 1, 2, 3] (half_list_run 4 (fun _ _ => true)))
        AdaptorMaxOrder.fresh
      = { atom_indices := [], nb_neigh := [2, 1, 0, 1, 0, 0], neighbours := [2, 3, 3, 3],
          offsets := [0, 2, 3, 3, 4, 4, 4] } := by
  unfold update
  rw [increase_maxorder_eq, full4_parent_clusters]
  have hp : (pair_manager [0, 1, 2, 3] (half_list_run 4 (fun _ _ => true))).pairs
      = half_list_run 4 (fun _ _ => true) := rfl
  obtain ⟨h1, h2, h3, h4, h5, h6⟩ := full4_atoms_to_add
  simp only [record_clusters, hp, List.map, List.flatMap_cons, List.flatMap_nil, h1, h2, h3,
    h4, h5, h6]
  decide

/-! ## Claims on the layout of the order-2 layer and on the chain queries -/

/-- C11 (what the code does): on three atoms, no two of them within the cutoff, `update()` of
the order-2 layer leaves `offsets = [1, 1, 1, 1, 0]`, which is not non-decreasing; its last
entry `0` does equal the length of the empty `neighbours`. -/
theorem half_list_offsets_not_monotone :
    (update_order2 3 (fun _ _ => false) AdaptorMaxOrder.fresh).offsets = [1, 1, 1, 1, 0] ∧
    ¬ (update_order2 3 (fun _ _ => false) AdaptorMaxOrder.fresh).offsets.Sorted (· ≤ ·) ∧
    (update_order2 3 (fun _ _ => false) AdaptorMaxOrder.fresh).neighbours = [] ∧
    (update_order2 3 (fun _ _ => false) AdaptorMaxOrder.fresh).offsets.getLast? = some 0 := by
  decide

/-- C14: for a counters tuple of length `m` with `1 < m < MaxOrder - 1`, `get_offset_impl`
returns what the wrapped layer's `get_offset_impl` returns for the same tuple, whatever the
layer's own arrays hold. -/
theorem offset_delegation (MaxOrder : Nat) (wrapped : List Nat → Option Nat)
    (m : AdaptorMaxOrder) (counters : List Nat) (h1 : 1 < counters.length)
    (h2 : counters.length < MaxOrder - 1) :
    get_offset_impl MaxOrder wrapped m counters = wrapped counters ∧
    ∀ m2 : AdaptorMaxOrder,
      get_offset_impl MaxOrder wrapped m2 counters
        = get_offset_impl MaxOrder wrapped m counters := by
  have hne : counters.length ≠ 1 := by omega
  have hne2 : counters.length ≠ MaxOrder - 1 := by omega
  have key : ∀ m2 : AdaptorMaxOrder,
      get_offset_impl MaxOrder wrapped m2 counters = wrapped counters := by
    intro m2
    simp [get_offset_impl, hne, hne2]
  exact ⟨key m, fun m2 => (key m2).trans (key m).symm⟩

/-- Witness of C14: a pair tuple on a layer with `MaxOrder = 4`. -/
theorem offset_delegation_witness :
    get_offset_impl 4 (fun c => some c.sum) AdaptorMaxOrder.fresh [5, 1]
      = (fun c : List Nat => some c.sum) [5, 1] :=
  (offset_delegation 4 (fun c => some c.sum) AdaptorMaxOrder.fresh [5, 1] (by decide)
    (by decide)).1

/-- C15: four atoms in a line with the order-2 pairs `(0,1)`, `(1,2)`, `(2,3)`: the order-3
pass visits these three parent pairs, gives them the `nb_neigh` entries `1, 1, 0` and leaves
`neighbours = [2, 3]`; the recorded triplets are exactly `(0,1,2)` and `(1,2,3)`, so `(0,1,3)`
is absent and no recorded triplet repeats an atom. -/
theorem line_scenario_triplets :
    (update 3 (pair_manager [0, 1, 2, 3] (fun a => if a < 3 then [a + 1] else []))
      AdaptorMaxOrder.fresh).nb_neigh = [1, 1, 0] ∧
    (update 3 (pair_manager [0, 1, 2, 3] (fun a => if a < 3 then [a + 1] else []))
      AdaptorMaxOrder.fresh).neighbours = [2, 3] ∧
    parent_clusters 3 (pair_manager [0, 1, 2, 3] (fun a => if a < 3 then [a + 1] else []))
      = [[0, 1], [1, 2], [2, 3]] ∧
    extend_clusters (fun a => if a < 3 then [a + 1] else []) [[0, 1], [1, 2], [2, 3]]
      = [[0, 1, 2], [1, 2, 3]] ∧
    [0, 1, 3] ∉ extend_clusters (fun a => if a < 3 then [a + 1] else [])
      [[0, 1], [1, 2], [2, 3]] ∧
    (∀ C ∈ extend_clusters (fun a => if a < 3 then [a + 1] else []) [[0, 1], [1, 2], [2, 3]],
      C.Nodup) := by
  obtain ⟨h1, h2, h3⟩ := line_atoms_to_add
  have hext : extend_clusters (fun a => if a < 3 then [a + 1] else [])
      [[0, 1], [1, 2], [2, 3]] = [[0, 1, 2], [1, 2, 3]] := by
    simp [extend_clusters, h1, h2, h3]
  rw [line_update, hext]
  refine ⟨by decide, by decide, line_parent_clusters, rfl, by decide, by decide⟩

/-- C16 (what the code does): three atoms with only the pair `(0, 1)` within the cutoff.
After `update()` of the order-2 layer `get_nb_clusters(2)` is `1` and the neighbour counts of
atoms `0` and `2` are `1` and `0`; but the neighbour count of atom `1` is `2`, and the read
`neighbours[offsets[0] + 0]` of atom `0`'s only neighbour falls past the end of `neighbours`. -/
theorem three_atom_scenario_pairs :
    chain_get_nb_clusters (StructureManagerCenters.update 3 { natoms := 0, atoms_index := [] })
      [update_order2 3 (fun i j => decide (i = 0 ∧ j = 1)) AdaptorMaxOrder.fresh] 2
      = Except.ok 1 ∧
    get_cluster_size
      (update_order2 3 (fun i j => decide (i = 0 ∧ j = 1)) AdaptorMaxOrder.fresh) 0
      = some 1 ∧
    get_cluster_size
      (update_order2 3 (fun i j => decide (i = 0 ∧ j = 1)) AdaptorMaxOrder.fresh) 2
      = some 0 ∧
    get_cluster_size
      (update_order2 3 (fun i j => decide (i = 0 ∧ j = 1)) AdaptorMaxOrder.fresh) 1
      = some 2 ∧
    get_cluster_neighbour
      (update_order2 3 (fun i j => decide (i = 0 ∧ j = 1)) AdaptorMaxOrder.fresh) 0 0
      = none := by
  refine ⟨rfl, by decide, by decide, by decide, by decide⟩

/-- C17: three atoms with the single order-2 pair `(0, 1)`: the order-3 pass leaves an empty
`neighbours`, `nb_neigh = [0]` for the single parent pair and `offsets = [0, 0]`, and
`get_nb_clusters(3)` on the order-3 layer is `0`. -/
theorem three_atom_scenario_triplets :
    (update 3 (pair_manager [0, 1, 2] (fun a => if a = 0 then [1] else []))
      AdaptorMaxOrder.fresh).neighbours = [] ∧
    (update 3 (pair_manager [0, 1, 2] (fun a => if a = 0 then [1] else []))
      AdaptorMaxOrder.fresh).nb_neigh = [0] ∧
    (update 3 (pair_manager [0, 1, 2] (fun a => if a = 0 then [1] else []))
      AdaptorMaxOrder.fresh).offsets = [0, 0] ∧
    parent_clusters 3 (pair_manager [0, 1, 2] (fun a => if a = 0 then [1] else []))
      = [[0, 1]] ∧
    chain_get_nb_clusters (StructureManagerCenters.update 3 { natoms := 0, atoms_index := [] })
      [update 3 (pair_manager [0, 1, 2] (fun a => if a = 0 then [1] else []))
          AdaptorMaxOrder.fresh,
        update_order2 3 (fun i j => decide (i = 0 ∧ j = 1)) AdaptorMaxOrder.fresh] 3
      = Except.ok 0 := by
  have hpar : parent_clusters 3 (pair_manager [0, 1, 2] (fun a => if a = 0 then [1] else []))
      = [[0, 1]] := by decide
  have hadd : atoms_to_add (fun a => if a = 0 then [1] else []) [0, 1] = [] := by
    rw [atoms_to_add_of_sorted _ _ (by decide)]; decide
  have hp : (pair_manager [0, 1, 2] (fun a => if a = 0 then [1] else [])).pairs
      = (fun a => if a = 0 then [1] else []) := rfl
  have hupd : update 3 (pair_manager [0, 1, 2] (fun a => if a = 0 then [1] else []))
      AdaptorMaxOrder.fresh
      = { atom_indices := [], nb_neigh := [0], neighbours := [], offsets := [0, 0] } := by
    unfold update
    rw [increase_maxorder_eq, hpar]
    simp only [record_clusters, hp, List.map, List.flatMap_cons, List.flatMap_nil, hadd]
    decide
  rw [hupd]
  exact ⟨rfl, rfl, rfl, hpar, rfl⟩

/-- C18: on a chain over a `StructureManagerCenters` updated with a positions matrix of `Natom`
columns, `get_nb_clusters(1)` asked on any layer is `Natom`, and for `2 <= k <= M` (the chain
has `M - 1` adaptor layers) `get_nb_clusters(k)` asked on the layer constructing order `k` or
on any layer above it is the length of `neighbours` of the layer constructing order `k`. -/
theorem chain_cluster_counts (Natom : Nat) (s : StructureManagerCenters)
    (layers : List AdaptorMaxOrder) (k : Nat) (h2 : 2 ≤ k) (hk : k ≤ layers.length + 1) :
    (∀ j, chain_get_nb_clusters (StructureManagerCenters.update Natom s) (layers.drop j) 1
      = Except.ok Natom) ∧
    ∃ L, layers[layers.length + 1 - k]? = some L ∧
      ∀ j, j ≤ layers.length + 1 - k →
        chain_get_nb_clusters (StructureManagerCenters.update Natom s) (layers.drop j) k
          = Except.ok L.neighbours.length := by
  constructor
  · intro j
    rw [chain_get_nb_clusters_one]
    rfl
  · obtain ⟨L, hL, _⟩ :=
      chain_get_nb_clusters_own (StructureManagerCenters.update Natom s) layers k h2 hk
    refine ⟨L, hL, ?_⟩
    intro j hj
    obtain ⟨L2, hL2, hq⟩ :=
      chain_get_nb_clusters_own (StructureManagerCenters.update Natom s) (layers.drop j) k h2
        (by simp; omega)
    rw [hq]
    have hidx : j + ((layers.drop j).length + 1 - k) = layers.length + 1 - k := by
      simp; omega
    rw [List.getElem?_drop, hidx, hL] at hL2
    cases hL2
    rfl

/-- Witness of C18: the chain of the three-atom scenario, asked for the pairs on the order-3
layer. -/
theorem chain_cluster_counts_witness :
    chain_get_nb_clusters (StructureManagerCenters.update 3 { natoms := 0, atoms_index := [] })
      ([{ AdaptorMaxOrder.fresh with nb_neigh := [0], offsets := [0, 0] },
        { AdaptorMaxOrder.fresh with neighbours := [1] }].drop 0) 1 = Except.ok 3 :=
  (chain_cluster_counts 3 { natoms := 0, atoms_index := [] }
    [{ AdaptorMaxOrder.fresh with nb_neigh := [0], offsets := [0, 0] },
      { AdaptorMaxOrder.fresh with neighbours := [1] }] 2 (by decide) (by decide)).1 0

/-- C19: on a chain of a `StructureManagerCenters` and adaptor layers reaching maximum order
`M` (`M - 1` layers), `get_nb_clusters(k)` raises an error exactly when `k < 1` or `k > M`; on
a bare `StructureManagerCenters` it raises exactly when `k` is not `1`. -/
theorem unsupported_order_query (bottom : StructureManagerCenters)
    (layers : List AdaptorMaxOrder) (k : Nat) :
    ((∃ e, chain_get_nb_clusters bottom layers k = Except.error e)
      ↔ (k < 1 ∨ layers.length + 1 < k)) ∧
    ((∃ e, bottom.get_nb_clusters k = Except.error e) ↔ k ≠ 1) := by
  constructor
  · constructor
    · rintro ⟨e, he⟩
      by_contra hcon
      have hk1 : 1 ≤ k := by omega
      have hkM : k ≤ layers.length + 1 := by omega
      by_cases h1 : k = 1
      · subst h1
        rw [chain_get_nb_clusters_one] at he
        cases he
      · obtain ⟨L, _, hq⟩ := chain_get_nb_clusters_own bottom layers k (by omega) hkM
        rw [hq] at he
        cases he
    · intro h
      exact ⟨_, chain_get_nb_clusters_error bottom layers k (by omega)⟩
  · by_cases h1 : k = 1
    · simp [StructureManagerCenters.get_nb_clusters, h1]
    · simp [StructureManagerCenters.get_nb_clusters, h1]

/-- C20 (what the code does): on the order-3 layer over four atoms in a line, a second
`update()` appends to what the first one left: `nb_neigh` goes from `[1, 1, 0]` to
`[1, 1, 0, 1, 1, 0]`, `neighbours` from `[2, 3]` to `[2, 3, 2, 3]` and `offsets` from
`[0, 1, 2, 2]` to `[0, 1, 2, 2, 3, 4, 4]`. -/
theorem extension_update_twice :
    update 3 (pair_manager [0, 1, 2, 3] (fun a => if a < 3 then [a + 1] else []))
        AdaptorMaxOrder.fresh
      = { atom_indices := [], nb_neigh := [1, 1, 0], neighbours := [2, 3],
          offsets := [0, 1, 2, 2] } ∧
    update 3 (pair_manager [0, 1, 2, 3] (fun a => if a < 3 then [a + 1] else []))
        (update 3 (pair_manager [0, 1, 2, 3] (fun a => if a < 3 then [a + 1] else []))
          AdaptorMaxOrder.fresh)
      = { atom_indices := [], nb_neigh := [1, 1, 0, 1, 1, 0], neighbours := [2, 3, 2, 3],
          offsets := [0, 1, 2, 2, 3, 4, 4] } := by
  rw [line_update, line_update]
  decide

/-! ## Lemmas on rebuilds -/

theorem half_inner_loop_csr (within : Nat → Nat → Bool) (i : Nat) (js : List Nat)
    (st st2 : AdaptorMaxOrder × Nat) (h : csr_arrays st.1 = csr_arrays st2.1)
    (hc : st.2 = st2.2) :
    csr_arrays (half_inner_loop within i js st).1
        = csr_arrays (half_inner_loop within i js st2).1 ∧
      (half_inner_loop within i js st).2 = (half_inner_loop within i js st2).2 := by
  unfold half_inner_loop
  induction js generalizing st st2 with
  | nil => exact ⟨h, hc⟩
  | cons j t ih =>
    simp only [List.foldl_cons]
    apply ih
    · simp only [csr_arrays, Prod.mk.injEq] at h
      obtain ⟨h1, h2, h3⟩ := h
      split_ifs <;> simp [csr_arrays, h1, h2, h3]
    · split_ifs <;> simp [hc]

theorem half_outer_step_csr (N : Nat) (within : Nat → Nat → Bool) (i : Nat)
    (st st2 : AdaptorMaxOrder × Nat) (h : csr_arrays st.1 = csr_arrays st2.1)
    (hc : st.2 = st2.2) :
    csr_arrays (half_outer_step N within st i).1
        = csr_arrays (half_outer_step N within st2 i).1 ∧
      (half_outer_step N within st i).2 = (half_outer_step N within st2 i).2 := by
  have hadd : csr_arrays (add_atom i st.1) = csr_arrays (add_atom i st2.1) := by
    simp only [csr_arrays, Prod.mk.injEq] at h
    obtain ⟨h1, h2, h3⟩ := h
    simp [csr_arrays, add_atom, h1, h2, h3]
  obtain ⟨h1, h2⟩ := half_inner_loop_csr within i (List.range' (i + 1) (N - (i + 1)))
    (add_atom i st.1, st.2) (add_atom i st2.1, st2.2) hadd hc
  simp only [csr_arrays, Prod.mk.injEq] at h1
  obtain ⟨g1, g2, g3⟩ := h1
  simp only [half_outer_step]
  exact ⟨by simp [csr_arrays, g1, g2, g3, h2], h2⟩

theorem half_outer_fold_csr (N : Nat) (within : Nat → Nat → Bool) (l : List Nat)
    (st st2 : AdaptorMaxOrder × Nat) (h : csr_arrays st.1 = csr_arrays st2.1)
    (hc : st.2 = st2.2) :
    csr_arrays (l.foldl (half_outer_step N within) st).1
      = csr_arrays (l.foldl (half_outer_step N within) st2).1 := by
  induction l generalizing st st2 with
  | nil => exact h
  | cons i t ih =>
    simp only [List.foldl_cons]
    obtain ⟨h1, h2⟩ := half_outer_step_csr N within i st st2 h hc
    exact ih _ _ h1 h2

theorem update_order2_csr (N : Nat) (within : Nat → Nat → Bool) (m m2 : AdaptorMaxOrder) :
    csr_arrays (update_order2 N within m) = csr_arrays (update_order2 N within m2) := by
  unfold update_order2 increase_maxorder_true make_half_neighbour_list
  apply half_outer_fold_csr
  · simp [csr_arrays, resize]
  · rfl

theorem update_atom_indices (MaxOrder : Nat) (mi : ManagerImplementation)
    (m : AdaptorMaxOrder) : (update MaxOrder mi m).atom_indices = m.atom_indices := by
  unfold update
  rw [increase_maxorder_eq]
  rfl

/-! ## Claims on rebuilds, forwarding and the species adaptor -/

/-- C21: two calls of `update()` in a row on an order-2 layer over the same atoms and the same
distance test leave `nb_neigh`, `neighbours` and `offsets` as the first call left them; more
generally these three arrays after `update()` do not depend on the state before the call. -/
theorem order2_update_idempotent (N : Nat) (within : Nat → Nat → Bool) (m : AdaptorMaxOrder) :
    (update_order2 N within (update_order2 N within m)).nb_neigh
      = (update_order2 N within m).nb_neigh ∧
    (update_order2 N within (update_order2 N within m)).neighbours
      = (update_order2 N within m).neighbours ∧
    (update_order2 N within (update_order2 N within m)).offsets
      = (update_order2 N within m).offsets ∧
    (∀ m2, csr_arrays (update_order2 N within m2) = csr_arrays (update_order2 N within m)) := by
  have h := update_order2_csr N within (update_order2 N within m) m
  simp only [csr_arrays, Prod.mk.injEq] at h
  exact ⟨h.1, h.2.1, h.2.2, fun m2 => update_order2_csr N within m2 m⟩

/-- C22: on a layer, `get_cluster_size` and `get_cluster_neighbour` for a cluster of order below
`MaxOrder - 1` return the wrapped manager's answers; `get_size`, `get_position` and
`get_atom_type` always return the wrapped manager's answers; a cluster of order `MaxOrder - 1`
is answered from the layer's own `nb_neigh`, `offsets` and `neighbours`. -/
theorem transparent_forwarding {V : Type} (MaxOrder : Nat) (manager : WrappedAccessors V)
    (m : AdaptorMaxOrder) (Layer : Nat) (cluster : ClusterRefKey) (index atom_index : Nat) :
    (cluster.Order < MaxOrder - 1 →
      get_cluster_size_order MaxOrder manager m Layer cluster
        = manager.get_cluster_size cluster ∧
      get_cluster_neighbour_order MaxOrder manager m Layer cluster index
        = manager.get_cluster_neighbour cluster index) ∧
    (cluster.Order = MaxOrder - 1 →
      get_cluster_size_order MaxOrder manager m Layer cluster
        = m.nb_neigh.get? (cluster.get_cluster_index Layer) ∧
      get_cluster_neighbour_order MaxOrder manager m Layer cluster index
        = (m.offsets.get? (cluster.get_cluster_index Layer)).bind
            (fun offset => m.neighbours.get? (offset + index))) ∧
    get_size manager m = manager.get_size ∧
    get_position manager m atom_index = manager.get_position atom_index ∧
    get_atom_type manager m atom_index = manager.get_atom_type atom_index := by
  refine ⟨?_, ?_, rfl, rfl, rfl⟩
  · intro h
    simp [get_cluster_size_order, get_cluster_neighbour_order, h]
  · intro h
    have hn : ¬ cluster.Order < MaxOrder - 1 := by omega
    constructor
    · simp [get_cluster_size_order, hn, get_cluster_size]
    · simp only [get_cluster_neighbour_order, hn, if_false, get_cluster_neighbour]
      cases m.offsets.get? (cluster.get_cluster_index Layer) <;> rfl

/-- C30: `AdaptorSpecies::update()` changes no field; after construction and any number of
calls of `update()`, `get_nb_clusters(MaxOrder)` is `0` whatever the wrapped manager answers,
and for any other cluster size it is the wrapped manager's answer. -/
theorem species_nb_clusters (MaxOrder : Nat) (wrapped : Nat → Except String Nat) (n k : Nat)
    (hk : k ≠ MaxOrder) :
    (∀ m : AdaptorSpecies, m.update = m) ∧
    AdaptorSpecies.update^[n] AdaptorSpecies.constructed = AdaptorSpecies.constructed ∧
    AdaptorSpecies.get_nb_clusters MaxOrder wrapped
      (AdaptorSpecies.update^[n] AdaptorSpecies.constructed) MaxOrder = Except.ok 0 ∧
    AdaptorSpecies.get_nb_clusters MaxOrder wrapped
      (AdaptorSpecies.update^[n] AdaptorSpecies.constructed) k = wrapped k := by
  have hiter : AdaptorSpecies.update^[n] AdaptorSpecies.constructed
      = AdaptorSpecies.constructed := by
    induction n with
    | zero => rfl
    | succ n ih => rw [Function.iterate_succ_apply', ih]; rfl
  refine ⟨fun _ => rfl, hiter, ?_, ?_⟩
  · rw [hiter]
    simp [AdaptorSpecies.get_nb_clusters, AdaptorSpecies.constructed]
  · rw [hiter]
    simp [AdaptorSpecies.get_nb_clusters, hk]

/-- Witness of C30: a species adaptor with `MaxOrder = 2` over a manager reporting five
pairs, after three calls of `update()`, asked for the atoms. -/
theorem species_nb_clusters_witness :
    AdaptorSpecies.get_nb_clusters 2 (fun k => if k = 2 then Except.ok 5 else Except.ok 3)
      (AdaptorSpecies.update^[3] AdaptorSpecies.constructed) 2 = Except.ok 0 ∧
    AdaptorSpecies.get_nb_clusters 2 (fun k => if k = 2 then Except.ok 5 else Except.ok 3)
      (AdaptorSpecies.update^[3] AdaptorSpecies.constructed) 1
      = (fun k => if k = 2 then Except.ok 5 else Except.ok 3) 1 :=
  ⟨(species_nb_clusters 2 (fun k => if k = 2 then Except.ok 5 else Except.ok 3) 3 1
      (by decide)).2.2.1,
    (species_nb_clusters 2 (fun k => if k = 2 then Except.ok 5 else Except.ok 3) 3 1
      (by decide)).2.2.2⟩

/-! ## Lemmas on reads through `offsets` -/

theorem flatMap_getElem?_of_take {α : Type} (f : α → List Nat) (P : List α) (c : Nat)
    (hc : c < P.length) (idx : Nat) (hidx : idx < (f P[c]).length) :
    (P.flatMap f)[((P.take c).flatMap f).length + idx]? = (f P[c])[idx]? := by
  have hP : P.flatMap f
      = (P.take c).flatMap f ++ (f P[c] ++ (P.drop (c + 1)).flatMap f) := by
    have h1 : P = P.take c ++ (P[c] :: P.drop (c + 1)) := by
      rw [← List.drop_eq_getElem_cons hc, List.take_append_drop]
    exact (congrArg (fun l => l.flatMap f) h1).trans
      (by rw [List.flatMap_append, List.flatMap_cons])
  rw [hP, List.getElem?_append_right (by omega)]
  simp only [Nat.add_sub_cancel_left]
  rw [List.getElem?_append_left hidx]

theorem update_fresh_fields (MaxOrder : Nat) (mi : ManagerImplementation) :
    (update MaxOrder mi AdaptorMaxOrder.fresh).nb_neigh
      = (parent_clusters MaxOrder mi).map (fun C => (atoms_to_add mi.pairs C).length) ∧
    (update MaxOrder mi AdaptorMaxOrder.fresh).neighbours
      = (parent_clusters MaxOrder mi).flatMap (atoms_to_add mi.pairs) := by
  unfold update
  rw [increase_maxorder_eq]
  simp [set_offsets, record_clusters, AdaptorMaxOrder.fresh]

/-- C28: after `update()` on a freshly constructed extension layer the entries of `nb_neigh`
sum to the length of `neighbours`, and for every parent cluster index `c < nb_neigh.size()` and
every `idx < nb_neigh[c]` the read `neighbours[offsets[c] + idx]` of `get_cluster_neighbour` is
inside `neighbours` and gives the entry number `idx` of the run recorded for the parent cluster
visited at position `c`. -/
theorem accessor_safety (MaxOrder : Nat) (mi : ManagerImplementation) (_hMax : 2 < MaxOrder)
    (c idx : Nat)
    (hc : c < (update MaxOrder mi AdaptorMaxOrder.fresh).nb_neigh.length)
    (hidx : idx < (update MaxOrder mi AdaptorMaxOrder.fresh).nb_neigh.getD c 0) :
    (update MaxOrder mi AdaptorMaxOrder.fresh).nb_neigh.sum
      = (update MaxOrder mi AdaptorMaxOrder.fresh).neighbours.length ∧
    ∃ C child, (parent_clusters MaxOrder mi)[c]? = some C ∧
      (atoms_to_add mi.pairs C)[idx]? = some child ∧
      get_cluster_neighbour (update MaxOrder mi AdaptorMaxOrder.fresh) c idx = some child := by
  obtain ⟨hnb, hne⟩ := update_fresh_fields MaxOrder mi
  rw [hnb] at hc hidx
  have hcP : c < (parent_clusters MaxOrder mi).length := by simpa using hc
  have hlen : idx < (atoms_to_add mi.pairs (parent_clusters MaxOrder mi)[c]).length := by
    rw [List.getD_eq_getElem _ _ hc] at hidx
    simpa using hidx
  constructor
  · rw [hnb, hne, List.length_flatMap]
    rfl
  · refine ⟨(parent_clusters MaxOrder mi)[c],
      (atoms_to_add mi.pairs (parent_clusters MaxOrder mi)[c])[idx],
      List.getElem?_eq_getElem hcP, List.getElem?_eq_getElem hlen, ?_⟩
    have hoff := update_fresh_offsets_getElem? MaxOrder mi c (le_of_lt hcP)
    simp only [get_cluster_neighbour, List.get?_eq_getElem?, hoff]
    rw [hne, flatMap_getElem?_of_take _ _ c hcP idx hlen]
    exact List.getElem?_eq_getElem hlen

/-- Witness of C28: the first child of the first parent pair on the order-3 layer over four
atoms in a line. -/
theorem accessor_safety_witness :
    ∃ C child,
      (parent_clusters 3
        (pair_manager [0, 1, 2, 3] (fun a => if a < 3 then [a + 1] else [])))[0]? = some C ∧
      (atoms_to_add (pair_manager [0, 1, 2, 3] (fun a => if a < 3 then [a + 1] else [])).pairs
        C)[0]? = some child ∧
      get_cluster_neighbour
        (update 3 (pair_manager [0, 1, 2, 3] (fun a => if a < 3 then [a + 1] else []))
          AdaptorMaxOrder.fresh) 0 0 = some child :=
  (accessor_safety 3 (pair_manager [0, 1, 2, 3] (fun a => if a < 3 then [a + 1] else []))
    (by decide) 0 0 (by rw [line_update]; decide) (by rw [line_update]; decide)).2

/-! ## Lemmas on the chain of five atoms

Five atoms, every two of them within the cutoff: the order-2 layer as `update()` leaves it, and
the order-3 layer built on what the order-2 layer presents. -/

theorem five_order2 :
    update_order2 5 (fun _ _ => true) AdaptorMaxOrder.fresh
      = { atom_indices := [0, 1, 2, 3], nb_neigh := [1, 5, 4, 3, 1],
          neighbours := [1, 2, 3, 4, 2, 3, 4, 3, 4, 4],
          offsets := [1, 1, 5, 5, 8, 8, 10, 10, 10] } := by
  decide

theorem five_cluster_children :
    (List.range 5).map
        (cluster_children (update_order2 5 (fun _ _ => true) AdaptorMaxOrder.fresh))
      = [[some 2], [some 2, some 3, some 4, some 2, some 3], [some 3, some 4, some 3, some 4],
          [some 3, some 4, some 3], [some 4]] := by
  decide

theorem five_parent_clusters :
    parent_clusters 3
        (order2_manager 5 (update_order2 5 (fun _ _ => true) AdaptorMaxOrder.fresh))
      = [[0, 2], [1, 2], [1, 3], [1, 4], [1, 2], [1, 3], [2, 3], [2, 4], [2, 3], [2, 4],
          [3, 3], [3, 4], [3, 3], [4, 4]] := by
  decide

theorem five_atoms_to_add_repeated :
    atoms_to_add
      (order2_manager 5 (update_order2 5 (fun _ _ => true) AdaptorMaxOrder.fresh)).pairs
      [3, 3] = [4] ∧
    atoms_to_add
      (order2_manager 5 (update_order2 5 (fun _ _ => true) AdaptorMaxOrder.fresh)).pairs
      [4, 4] = [] := by
  have h3 : collect_atoms (order2_manager 5
      (update_order2 5 (fun _ _ => true) AdaptorMaxOrder.fresh)).pairs [3, 3]
      = ([3, 3], [4]) := by decide
  have h4 : collect_atoms (order2_manager 5
      (update_order2 5 (fun _ _ => true) AdaptorMaxOrder.fresh)).pairs [4, 4]
      = ([4, 4], []) := by decide
  constructor
  · simp [atoms_to_add, h3, set_difference]
  · simp [atoms_to_add, h4, set_difference]

theorem five_atoms_to_add :
    (parent_clusters 3
        (order2_manager 5 (update_order2 5 (fun _ _ => true) AdaptorMaxOrder.fresh))).map
      (atoms_to_add
        (order2_manager 5 (update_order2 5 (fun _ _ => true) AdaptorMaxOrder.fresh)).pairs)
      = [[3, 4], [3, 4], [4], [], [3, 4], [4], [4], [], [4], [], [4], [], [4], []] := by
  rw [five_parent_clusters]
  have hs : ∀ C : List Nat, C.Sorted (· < ·) → ∀ r,
      (collect_atoms (order2_manager 5
        (update_order2 5 (fun _ _ => true) AdaptorMaxOrder.fresh)).pairs C).2 = r →
      atoms_to_add (order2_manager 5
        (update_order2 5 (fun _ _ => true) AdaptorMaxOrder.fresh)).pairs C = r := by
    intro C hC r hr
    rw [atoms_to_add_of_sorted _ _ hC, hr]
  obtain ⟨h33, h44⟩ := five_atoms_to_add_repeated
  simp only [List.map_cons, List.map_nil, h33, h44,
    hs [0, 2] (by decide) [3, 4] (by decide), hs [1, 2] (by decide) [3, 4] (by decide),
    hs [1, 3] (by decide) [4] (by decide), hs [1, 4] (by decide) [] (by decide),
    hs [2, 3] (by decide) [4] (by decide), hs [2, 4] (by decide) [] (by decide),
    hs [3, 4] (by decide) [] (by decide)]

theorem update_fresh_of_runs (MaxOrder : Nat) (mi : ManagerImplementation) :
    (update MaxOrder mi AdaptorMaxOrder.fresh).nb_neigh
      = ((parent_clusters MaxOrder mi).map (atoms_to_add mi.pairs)).map List.length ∧
    (update MaxOrder mi AdaptorMaxOrder.fresh).neighbours
      = ((parent_clusters MaxOrder mi).map (atoms_to_add mi.pairs)).flatten ∧
    (update MaxOrder mi AdaptorMaxOrder.fresh).offsets
      = List.scanl (· + ·) 0
          (((parent_clusters MaxOrder mi).map (atoms_to_add mi.pairs)).map List.length) := by
  obtain ⟨h1, h2⟩ := update_fresh_fields MaxOrder mi
  refine ⟨by rw [h1, List.map_map]; rfl, by rw [h2, List.flatMap_def], ?_⟩
  unfold update
  rw [increase_maxorder_eq, set_offsets_offsets]
  simp [record_clusters, AdaptorMaxOrder.fresh, List.map_map, Function.comp_def]

theorem five_update :
    update 3 (order2_manager 5 (update_order2 5 (fun _ _ => true) AdaptorMaxOrder.fresh))
        AdaptorMaxOrder.fresh
      = { atom_indices := [], nb_neigh := [2, 2, 1, 0, 2, 1, 1, 0, 1, 0, 1, 0, 1, 0],
          neighbours := [3, 4, 3, 4, 4, 3, 4, 4, 4, 4, 4, 4],
          offsets := [0, 2, 4, 5, 5, 7, 8, 9, 9, 10, 10, 11, 11, 12, 12] } := by
  obtain ⟨h1, h2, h3⟩ := update_fresh_of_runs 3
    (order2_manager 5 (update_order2 5 (fun _ _ => true) AdaptorMaxOrder.fresh))
  have h4 := update_atom_indices 3
    (order2_manager 5 (update_order2 5 (fun _ _ => true) AdaptorMaxOrder.fresh))
    AdaptorMaxOrder.fresh
  rw [five_atoms_to_add] at h1 h2 h3
  cases hu : update 3
    (order2_manager 5 (update_order2 5 (fun _ _ => true) AdaptorMaxOrder.fresh))
    AdaptorMaxOrder.fresh with
  | mk ai nb ne off =>
    rw [hu] at h1 h2 h3 h4
    simp only at h1 h2 h3 h4
    subst h1 h2 h3 h4
    decide

/-! ## Claims on the chain as the code builds it -/

/-- C5 (what the code does): five atoms, every two of them within the cutoff.  After `update()`
of the order-2 layer, every read that `get_cluster_size` and `get_cluster_neighbour` make for the
five atoms stays inside the vectors.  The layer presents atom `3` with three children, the
first of them atom `3` itself, which is the pair `(3, 3)`; the children it presents for atom `1`
are `2, 3, 4, 2, 3`, not ascending, with atoms `2` and `3` twice; the order-3 pass visits the
pair `(3, 3)`, and the extension step appends atom `4` to it, which is the triplet
`(3, 3, 4)`. -/
theorem half_list_presents_repeated_atom :
    update_order2 5 (fun _ _ => true) AdaptorMaxOrder.fresh
      = { atom_indices := [0, 1, 2, 3], nb_neigh := [1, 5, 4, 3, 1],
          neighbours := [1, 2, 3, 4, 2, 3, 4, 3, 4, 4],
          offsets := [1, 1, 5, 5, 8, 8, 10, 10, 10] } ∧
    (List.range 5).map
        (cluster_children (update_order2 5 (fun _ _ => true) AdaptorMaxOrder.fresh))
      = [[some 2], [some 2, some 3, some 4, some 2, some 3], [some 3, some 4, some 3, some 4],
          [some 3, some 4, some 3], [some 4]] ∧
    get_cluster_size (update_order2 5 (fun _ _ => true) AdaptorMaxOrder.fresh) 3 = some 3 ∧
    get_cluster_neighbour (update_order2 5 (fun _ _ => true) AdaptorMaxOrder.fresh) 3 0
      = some 3 ∧
    get_cluster_size (update_order2 5 (fun _ _ => true) AdaptorMaxOrder.fresh) 1 = some 5 ∧
    get_cluster_neighbour (update_order2 5 (fun _ _ => true) AdaptorMaxOrder.fresh) 1 0
      = some 2 ∧
    get_cluster_neighbour (update_order2 5 (fun _ _ => true) AdaptorMaxOrder.fresh) 1 3
      = some 2 ∧
    [3, 3] ∈ parent_clusters 3
      (order2_manager 5 (update_order2 5 (fun _ _ => true) AdaptorMaxOrder.fresh)) ∧
    atoms_to_add
      (order2_manager 5 (update_order2 5 (fun _ _ => true) AdaptorMaxOrder.fresh)).pairs
      [3, 3] = [4] :=
  ⟨five_order2, five_cluster_children, by decide, by decide, by decide, by decide, by decide,
    by decide, five_atoms_to_add_repeated.1⟩

/-- C7 (what the code does): five atoms, every two of them within the cutoff, and an order-3
layer built on the order-2 layer.  The order-2 layer presents the pair `(1, 2)` twice among the
children of atom `1`, so the order-3 pass visits the parent `(1, 2)` twice and records its run
`3, 4` twice: among the recorded triplets `(1, 2, 3)` occurs twice. -/
theorem half_list_chain_repeats_triplet :
    (List.range 5).map
        (cluster_children (update_order2 5 (fun _ _ => true) AdaptorMaxOrder.fresh))
      = [[some 2], [some 2, some 3, some 4, some 2, some 3], [some 3, some 4, some 3, some 4],
          [some 3, some 4, some 3], [some 4]] ∧
    parent_clusters 3
        (order2_manager 5 (update_order2 5 (fun _ _ => true) AdaptorMaxOrder.fresh))
      = [[0, 2], [1, 2], [1, 3], [1, 4], [1, 2], [1, 3], [2, 3], [2, 4], [2, 3], [2, 4],
          [3, 3], [3, 4], [3, 3], [4, 4]] ∧
    (update 3 (order2_manager 5 (update_order2 5 (fun _ _ => true) AdaptorMaxOrder.fresh))
        AdaptorMaxOrder.fresh).nb_neigh = [2, 2, 1, 0, 2, 1, 1, 0, 1, 0, 1, 0, 1, 0] ∧
    (update 3 (order2_manager 5 (update_order2 5 (fun _ _ => true) AdaptorMaxOrder.fresh))
        AdaptorMaxOrder.fresh).neighbours = [3, 4, 3, 4, 4, 3, 4, 4, 4, 4, 4, 4] ∧
    extend_clusters
        (order2_manager 5 (update_order2 5 (fun _ _ => true) AdaptorMaxOrder.fresh)).pairs
        (parent_clusters 3
          (order2_manager 5 (update_order2 5 (fun _ _ => true) AdaptorMaxOrder.fresh)))
      = [[0, 2, 3], [0, 2, 4], [1, 2, 3], [1, 2, 4], [1, 3, 4], [1, 2, 3], [1, 2, 4],
          [1, 3, 4], [2, 3, 4], [2, 3, 4], [3, 3, 4], [3, 3, 4]] ∧
    (extend_clusters
        (order2_manager 5 (update_order2 5 (fun _ _ => true) AdaptorMaxOrder.fresh)).pairs
        (parent_clusters 3
          (order2_manager 5
            (update_order2 5 (fun _ _ => true) AdaptorMaxOrder.fresh)))).count [1, 2, 3]
      = 2 := by
  have hext : extend_clusters
        (order2_manager 5 (update_order2 5 (fun _ _ => true) AdaptorMaxOrder.fresh)).pairs
        (parent_clusters 3
          (order2_manager 5 (update_order2 5 (fun _ _ => true) AdaptorMaxOrder.fresh)))
      = [[0, 2, 3], [0, 2, 4], [1, 2, 3], [1, 2, 4], [1, 3, 4], [1, 2, 3], [1, 2, 4],
          [1, 3, 4], [2, 3, 4], [2, 3, 4], [3, 3, 4], [3, 3, 4]] := by
    rw [extend_clusters_eq_zip, five_atoms_to_add, five_parent_clusters]
    decide
  rw [hext, five_update]
  exact ⟨five_cluster_children, five_parent_clusters, rfl, rfl, rfl, by decide⟩

/-- C12 (what the code does): on a layer that wraps another `AdaptorMaxOrder` layer, a counters
tuple of length `m = MaxOrder - 1`, hence `m > 1`, passes the layer's own `static_assert`; the
body then names the wrapped layer's `get_offset_impl` for the whole tuple, whose length `m` is
the wrapped layer's `MaxOrder`, and the wrapped layer's `static_assert(Order <
traits::MaxOrder)` rejects it, whatever the arrays of the layers and whatever the bottom
manager.  No value `offsets[p + counters[m-1]]` is returned. -/
theorem own_order_query_rejected (bottom : List Nat → Except String (Option Nat))
    (top wrapped : AdaptorMaxOrder) (below : List AdaptorMaxOrder) (counters : List Nat)
    (hm : counters.length = below.length + 2) :
    chain_get_offset_impl bottom (top :: wrapped :: below) counters
      = Except.error "this implementation handles only up to the respective MaxOrder" := by
  have h1 : counters.length < (wrapped :: below).length + 2 := by simp; omega
  have h2 : ¬ counters.length < below.length + 2 := by omega
  simp [chain_get_offset_impl, h1, h2]

/-- Witness of C12: the chain of five atoms, every two of them within the cutoff, over a bottom
manager answering the first counter; the pair tuple `(2, 0)` asked on the order-3 layer. -/
theorem own_order_query_rejected_witness :
    chain_get_offset_impl (fun c => Except.ok (some (c.headD 0)))
      [update 3 (order2_manager 5 (update_order2 5 (fun _ _ => true) AdaptorMaxOrder.fresh))
          AdaptorMaxOrder.fresh,
        update_order2 5 (fun _ _ => true) AdaptorMaxOrder.fresh] [2, 0]
      = Except.error "this implementation handles only up to the respective MaxOrder" :=
  own_order_query_rejected (fun c => Except.ok (some (c.headD 0)))
    (update 3 (order2_manager 5 (update_order2 5 (fun _ _ => true) AdaptorMaxOrder.fresh))
      AdaptorMaxOrder.fresh)
    (update_order2 5 (fun _ _ => true) AdaptorMaxOrder.fresh) [] [2, 0] rfl

/-- C13 (what the code does): five atoms, every two of them within the cutoff, so that the
pairs of atom `1` begin at position `4` of the order-2 `neighbours`.  Asked for the tuple `(1)`,
the order-3 layer of the chain answers `2`, the entry `offsets[1]` of its own array, which is
indexed by pairs; the order-2 layer answers `1`.  Likewise an order-3 layer built on a manager
that presents the exact half list of four atoms answers `2`, where the pairs of atom `1` begin
at position `3`. -/
theorem single_atom_offset_scenario :
    chain_get_offset_impl (fun c => Except.ok (some (c.headD 0)))
      [update 3 (order2_manager 5 (update_order2 5 (fun _ _ => true) AdaptorMaxOrder.fresh))
          AdaptorMaxOrder.fresh,
        update_order2 5 (fun _ _ => true) AdaptorMaxOrder.fresh] [1] = Except.ok (some 2) ∧
    chain_get_offset_impl (fun c => Except.ok (some (c.headD 0)))
      [update_order2 5 (fun _ _ => true) AdaptorMaxOrder.fresh] [1] = Except.ok (some 1) ∧
    (update_order2 5 (fun _ _ => true) AdaptorMaxOrder.fresh).neighbours
      = [1, 2, 3, 4, 2, 3, 4, 3, 4, 4] ∧
    ((List.range 1).flatMap (half_list_run 5 (fun _ _ => true))).length = 4 ∧
    get_offset_impl 3 (fun c => some (c.headD 0))
      (update 3 (pair_manager [0, 1, 2, 3] (half_list_run 4 (fun _ _ => true)))
        AdaptorMaxOrder.fresh) [1] = some 2 ∧
    ((List.range 1).flatMap (half_list_run 4 (fun _ _ => true))).length = 3 := by
  rw [five_update, full4_update]
  exact ⟨rfl, rfl, by decide, by decide, rfl, by decide⟩

/-! ## Lemmas on the distance test -/

theorem trunc_int_of_nonneg (x : ℚ) (hx : 0 ≤ x) : trunc_int x = ⌊x⌋ := by
  simp [trunc_int, hx]

theorem face_dist_of_pos (r : ℚ) (hr : 0 < r) : face_dist r = 1 / r := by
  simp [face_dist, hr]

theorem face_dist_of_nonpos (r : ℚ) (hr : r ≤ 0) : face_dist r = 1 := by
  simp [face_dist, not_lt.mpr hr]

theorem nbins_axis_ge_one (r c : ℚ) : 1 ≤ nbins_axis r c :=
  le_max_right _ _

theorem nbins_axis_of_le (r c : ℚ) (hr : 0 < r) (hc : 0 < c) (h : c ≤ 1 / r) :
    nbins_axis r c = ⌊(1 / r) / c⌋ ∧ ((nbins_axis r c : Int) : ℚ) * c ≤ 1 / r := by
  have hq : (1 : ℚ) ≤ (1 / r) / c := (one_le_div hc).mpr h
  have hfloor : (1 : Int) ≤ ⌊(1 / r) / c⌋ := Int.le_floor.mpr (by simpa using hq)
  have hn : nbins_axis r c = ⌊(1 / r) / c⌋ := by
    unfold nbins_axis
    rw [face_dist_of_pos r hr, trunc_int_of_nonneg _ (le_trans zero_le_one hq)]
    exact max_eq_left hfloor
  refine ⟨hn, ?_⟩
  rw [hn]
  exact (le_div_iff₀ hc).mp (Int.floor_le _)

theorem nbins_axis_of_lt (r c : ℚ) (hr : 0 < r) (hc : 0 < c) (h : 1 / r < c) :
    nbins_axis r c = 1 := by
  have hpos : (0 : ℚ) ≤ (1 / r) / c := le_of_lt (div_pos (one_div_pos.mpr hr) hc)
  have hq : (1 / r) / c < 1 := (div_lt_one hc).mpr h
  have hfloor : ⌊(1 / r) / c⌋ < 1 := Int.floor_lt.mpr (by simpa using hq)
  unfold nbins_axis
  rw [face_dist_of_pos r hr, trunc_int_of_nonneg _ hpos]
  exact max_eq_right (le_of_lt hfloor)

/-- C24 (counterexample): for an axis of reciprocal length `1` (face distance `1`) and cutoff
`2`, the bin count is `1` and the box edge `1 / 1 = 1` is below the cutoff. -/
theorem bin_edge_below_cutoff :
    nbins_axis 1 2 = 1 ∧ face_dist 1 / ((nbins_axis 1 2 : Int) : ℚ) < 2 := by
  have h : nbins_axis 1 2 = 1 := nbins_axis_of_lt 1 2 (by norm_num) (by norm_num) (by norm_num)
  rw [h]
  exact ⟨rfl, by norm_num [face_dist]⟩

/-- C24 (amended): for an axis with positive reciprocal length `r` and a cutoff `c > 0`, the
bin count is `n = max(trunc((1/r)/c), 1) >= 1`; when the face distance `1/r` is at least `c`,
the box edge `(1/r)/n` is at least `c`; when `1/r` is below `c`, there is the single bin
`n = 1`, whose edge `1/r` is below `c`. -/
theorem bin_grid_sizing (r c : ℚ) (hr : 0 < r) (hc : 0 < c) :
    nbins_axis r c = max (trunc_int ((1 / r) / c)) 1 ∧
    1 ≤ nbins_axis r c ∧
    (c ≤ 1 / r → c ≤ (1 / r) / ((nbins_axis r c : Int) : ℚ)) ∧
    (1 / r < c → nbins_axis r c = 1 ∧ (1 / r) / ((nbins_axis r c : Int) : ℚ) < c) := by
  refine ⟨by simp [nbins_axis, face_dist_of_pos r hr], nbins_axis_ge_one r c, ?_, ?_⟩
  · intro h
    have hpos : (0 : ℚ) < ((nbins_axis r c : Int) : ℚ) := by
      exact_mod_cast (lt_of_lt_of_le zero_lt_one (nbins_axis_ge_one r c))
    rw [le_div_iff₀ hpos, mul_comm]
    exact (nbins_axis_of_le r c hr hc h).2
  · intro h
    have h1 := nbins_axis_of_lt r c hr hc h
    refine ⟨h1, ?_⟩
    rw [h1]
    simpa using h

/-- Witness of C24 (amended): reciprocal length `1/10` and cutoff `3/2`. -/
theorem bin_grid_sizing_witness :
    1 ≤ nbins_axis (1 / 10) (3 / 2) ∧
    ((3 / 2 : ℚ) ≤ 1 / (1 / 10) →
      (3 / 2 : ℚ) ≤ (1 / (1 / 10)) / ((nbins_axis (1 / 10) (3 / 2) : Int) : ℚ)) :=
  ⟨(bin_grid_sizing (1 / 10) (3 / 2) (by norm_num) (by norm_num)).2.1,
    (bin_grid_sizing (1 / 10) (3 / 2) (by norm_num) (by norm_num)).2.2.1⟩

/-! ## Claims on `StructureManagerCenters::build` and on the integer helpers -/

/-- C31: `build` appends the ids `0, ..., N - 1` to `atoms_index[0]` without clearing it.  On a
manager whose `atoms_index[0]` is empty the result is `[0, ..., N - 1]`; after a second update
with an input of the same `N` atoms it holds each id twice, `2 N` entries, while `natoms` and
`get_nb_clusters(1)` are `N` after either update. -/
theorem centers_build_appends (N : Nat) (s : StructureManagerCenters)
    (hs : s.atoms_index = []) :
    (∀ t : StructureManagerCenters,
      (StructureManagerCenters.build N t).atoms_index = t.atoms_index ++ List.range N) ∧
    (StructureManagerCenters.update N s).atoms_index = List.range N ∧
    (StructureManagerCenters.update N (StructureManagerCenters.update N s)).atoms_index
      = List.range N ++ List.range N ∧
    (StructureManagerCenters.update N
      (StructureManagerCenters.update N s)).atoms_index.length = 2 * N ∧
    (∀ id, id < N →
      (StructureManagerCenters.update N
        (StructureManagerCenters.update N s)).atoms_index.count id = 2) ∧
    (StructureManagerCenters.update N s).natoms = N ∧
    (StructureManagerCenters.update N (StructureManagerCenters.update N s)).natoms = N ∧
    (StructureManagerCenters.update N s).get_nb_clusters 1 = Except.ok N ∧
    (StructureManagerCenters.update N (StructureManagerCenters.update N s)).get_nb_clusters 1
      = Except.ok N := by
  have h2 : (StructureManagerCenters.update N (StructureManagerCenters.update N s)).atoms_index
      = List.range N ++ List.range N := by
    simp [StructureManagerCenters.update, StructureManagerCenters.build, hs]
  refine ⟨fun t => rfl, ?_, h2, ?_, ?_, rfl, rfl, rfl, rfl⟩
  · simp [StructureManagerCenters.update, StructureManagerCenters.build, hs]
  · rw [h2]
    simp
    omega
  · intro id hid
    rw [h2, List.count_append,
      List.count_eq_one_of_mem (List.nodup_range N) (List.mem_range.mpr hid)]

/-- Witness of C31: three atoms on a manager with empty `atoms_index[0]`. -/
theorem centers_build_appends_witness :
    (StructureManagerCenters.update 3
      (StructureManagerCenters.update 3 { natoms := 0, atoms_index := [] })).atoms_index
      = List.range 3 ++ List.range 3 :=
  (centers_build_appends 3 { natoms := 0, atoms_index := [] } rfl).2.2.1

/-! ## Lemmas on truncated division -/

theorem neg_tmod_eq (a b : Int) : (-a).tmod b = -(a.tmod b) := by
  rw [Int.tmod_def, Int.tmod_def, Int.neg_tdiv]
  ring

theorem tmod_nonpos_of_nonpos (a b : Int) (ha : a ≤ 0) : a.tmod b ≤ 0 := by
  have h := Int.tmod_nonneg b (show 0 ≤ -a by omega)
  rw [neg_tmod_eq] at h
  omega

theorem tmod_bounds_of_pos (a b : Int) (hb : 0 < b) : -b < a.tmod b ∧ a.tmod b < b := by
  have h1 := Int.tmod_lt_of_pos a hb
  have h2 := Int.tmod_lt_of_pos (-a) hb
  rw [neg_tmod_eq] at h2
  exact ⟨by omega, h1⟩

theorem tmod_bounds_of_neg (a b : Int) (hb : b < 0) : b < a.tmod b ∧ a.tmod b < -b := by
  have h := tmod_bounds_of_pos a (-b) (by omega)
  rw [Int.tmod_neg] at h
  exact ⟨by omega, h.2⟩

theorem floor_of_div_decomposition (x y q r : Int) (hy : y ≠ 0) (hx : x = q * y + r)
    (hsign : (0 < y → 0 ≤ r ∧ r < y) ∧ (y < 0 → y < r ∧ r ≤ 0)) :
    ⌊(x : ℚ) / (y : ℚ)⌋ = q := by
  have hyq : (y : ℚ) ≠ 0 := by exact_mod_cast hy
  have hdiv : (x : ℚ) / (y : ℚ) = (q : ℚ) + (r : ℚ) / (y : ℚ) := by
    rw [hx]
    push_cast
    field_simp
  rw [Int.floor_eq_iff, hdiv]
  rcases lt_or_gt_of_ne hy with hneg | hpos
  · obtain ⟨h1, h2⟩ := hsign.2 hneg
    have hyneg : (y : ℚ) < 0 := by exact_mod_cast hneg
    have hr0 : (r : ℚ) ≤ 0 := by exact_mod_cast h2
    have hr1 : (y : ℚ) < (r : ℚ) := by exact_mod_cast h1
    have hge : 0 ≤ (r : ℚ) / (y : ℚ) := div_nonneg_of_nonpos hr0 (le_of_lt hyneg)
    have hlt : (r : ℚ) / (y : ℚ) < 1 := by
      rw [div_lt_one_of_neg hyneg]
      exact hr1
    constructor <;> linarith
  · obtain ⟨h1, h2⟩ := hsign.1 hpos
    have hypos : (0 : ℚ) < (y : ℚ) := by exact_mod_cast hpos
    have hr0 : (0 : ℚ) ≤ (r : ℚ) := by exact_mod_cast h1
    have hr1 : (r : ℚ) < (y : ℚ) := by exact_mod_cast h2
    have hge : 0 ≤ (r : ℚ) / (y : ℚ) := div_nonneg hr0 (le_of_lt hypos)
    have hlt : (r : ℚ) / (y : ℚ) < 1 := (div_lt_one hypos).mpr hr1
    constructor <;> linarith

theorem modulo_and_rest_spec (x y : Int) :
    x = (modulo_and_rest x y).1 * y + (modulo_and_rest x y).2 ∧
    (0 < y → 0 ≤ (modulo_and_rest x y).2 ∧ (modulo_and_rest x y).2 < y) ∧
    (y < 0 → y < (modulo_and_rest x y).2 ∧ (modulo_and_rest x y).2 ≤ 0) := by
  have hdef := Int.tmod_add_tdiv x y
  have hmul : y * x.tdiv y = x.tdiv y * y := mul_comm _ _
  unfold modulo_and_rest
  simp only
  split_ifs with hc
  · obtain ⟨hrem, hsgn⟩ := hc
    refine ⟨by simp only; linarith, ?_, ?_⟩
    · intro hpos
      have hxneg : x < 0 := by
        by_contra hx
        apply hsgn
        simp [hx, not_lt.mpr (le_of_lt hpos)]
      have h1 := tmod_nonpos_of_nonpos x y (le_of_lt hxneg)
      have h2 := tmod_bounds_of_pos x y hpos
      simp only
      omega
    · intro hneg
      have hxnn : 0 ≤ x := by
        by_contra hx
        apply hsgn
        simp [not_le.mp hx, hneg]
      have h1 := Int.tmod_nonneg y hxnn
      have h2 := tmod_bounds_of_neg x y hneg
      simp only
      omega
  · refine ⟨by simp only; linarith, ?_, ?_⟩
    · intro hpos
      have h2 := tmod_bounds_of_pos x y hpos
      simp only
      by_cases hrem : x.tmod y = 0
      · omega
      · have hsame : decide (x < 0) = decide (y < 0) := by
          by_contra hne
          exact hc ⟨hrem, hne⟩
        have hxnn : 0 ≤ x := by
          by_contra hx
          simp [not_le.mp hx, not_lt.mpr (le_of_lt hpos)] at hsame
        have h1 := Int.tmod_nonneg y hxnn
        omega
    · intro hneg
      have h2 := tmod_bounds_of_neg x y hneg
      simp only
      by_cases hrem : x.tmod y = 0
      · omega
      · have hsame : decide (x < 0) = decide (y < 0) := by
          by_contra hne
          exact hc ⟨hrem, hne⟩
        have hxneg : x < 0 := by
          by_contra hx
          simp [hx, hneg] at hsame
        have h1 := tmod_nonpos_of_nonpos x y (le_of_lt hxneg)
        omega

/-- C32: for every `x` and every `y` other than `0`, `modulo_and_rest` returns `(q, r)` with
`q` the floor of `x / y`, `x = q * y + r`, and `r` either `0` or of the sign of `y`, with
`|r| < |y|`; so `0 <= r < y` when `y > 0`. -/
theorem modulo_and_rest_divmod (x y : Int) (hy : y ≠ 0) :
    (modulo_and_rest x y).1 = ⌊(x : ℚ) / (y : ℚ)⌋ ∧
    x = (modulo_and_rest x y).1 * y + (modulo_and_rest x y).2 ∧
    ((modulo_and_rest x y).2 = 0 ∨
      (0 < (modulo_and_rest x y).2 ∧ 0 < y) ∨ ((modulo_and_rest x y).2 < 0 ∧ y < 0)) ∧
    |(modulo_and_rest x y).2| < |y| ∧
    (0 < y → 0 ≤ (modulo_and_rest x y).2 ∧ (modulo_and_rest x y).2 < y) := by
  obtain ⟨h1, h2, h3⟩ := modulo_and_rest_spec x y
  refine ⟨(floor_of_div_decomposition x y _ _ hy h1 ⟨h2, h3⟩).symm, h1, ?_, ?_, h2⟩
  · rcases lt_or_gt_of_ne hy with hneg | hpos
    · have := h3 hneg
      omega
    · have := h2 hpos
      omega
  · rcases lt_or_gt_of_ne hy with hneg | hpos
    · have := h3 hneg
      rw [abs_lt, abs_of_neg hneg]
      omega
    · have := h2 hpos
      rw [abs_lt, abs_of_pos hpos]
      omega

/-- Witness of C32: `x = -7`, `y = 2` gives `(-4, 1)`. -/
theorem modulo_and_rest_divmod_witness :
    (-7 : Int) = (modulo_and_rest (-7) 2).1 * 2 + (modulo_and_rest (-7) 2).2 ∧
    modulo_and_rest (-7) 2 = (-4, 1) :=
  ⟨(modulo_and_rest_divmod (-7) 2 (by decide)).2.1, by decide⟩

/-! ## Lemmas on mixed-radix digits -/

theorem ediv_ediv_of_nonneg (a n k : Int) (ha : 0 ≤ a) (hn : 0 ≤ n) (hk : 0 ≤ k) :
    a / n / k = a / (n * k) := by
  lift a to ℕ using ha
  lift n to ℕ using hn
  lift k to ℕ using hk
  exact_mod_cast Nat.div_div_eq_div_mul a n k

theorem radix_decode_length (index : Int) (ss : List Int) :
    (radix_decode index ss).length = ss.length := by
  induction ss generalizing index with
  | nil => rfl
  | cons s t ih => simp [radix_decode, ih]

theorem radix_decode_bounds (index : Int) (ss : List Int) (hpos : ∀ s ∈ ss, 0 < s) :
    List.Forall₂ (fun c s => 0 ≤ c ∧ c < s) (radix_decode index ss) ss := by
  induction ss generalizing index with
  | nil => exact List.Forall₂.nil
  | cons s t ih =>
    have hs : 0 < s := hpos s (List.mem_cons_self _ _)
    exact List.Forall₂.cons ⟨Int.emod_nonneg _ (ne_of_gt hs), Int.emod_lt_of_pos _ hs⟩
      (ih _ (fun a ha => hpos a (List.mem_cons_of_mem _ ha)))

theorem radix_encode_decode (index : Int) (ss : List Int) (hpos : ∀ s ∈ ss, 0 < s)
    (h0 : 0 ≤ index) (h1 : index < ss.prod) :
    radix_encode (radix_decode index ss) ss = index := by
  induction ss generalizing index with
  | nil =>
    simp only [List.prod_nil] at h1
    simp only [radix_decode, radix_encode]
    omega
  | cons s t ih =>
    have hs : 0 < s := hpos s (List.mem_cons_self _ _)
    have hq0 : 0 ≤ index / s := Int.ediv_nonneg h0 (le_of_lt hs)
    have hq1 : index / s < t.prod := by
      apply Int.ediv_lt_of_lt_mul hs
      rw [List.prod_cons, mul_comm] at h1
      exact h1
    simp only [radix_decode, radix_encode]
    rw [ih (index / s) (fun a ha => hpos a (List.mem_cons_of_mem _ ha)) hq0 hq1]
    exact Int.emod_add_ediv index s

theorem radix_decode_encode (cs ss : List Int)
    (h : List.Forall₂ (fun c s => 0 ≤ c ∧ c < s) cs ss) :
    radix_decode (radix_encode cs ss) ss = cs := by
  induction h with
  | nil => rfl
  | @cons c s cs ss hcs _ ih =>
    obtain ⟨hc0, hc1⟩ := hcs
    have hs : s ≠ 0 := by omega
    simp only [radix_encode, radix_decode]
    rw [Int.add_mul_emod_self_left, Int.emod_eq_of_lt hc0 hc1,
      Int.add_mul_ediv_left _ _ hs, Int.ediv_eq_zero_of_lt hc0 hc1, zero_add, ih]

theorem forall2_take_of_getD (P : Int → Int → Prop) (cs ss : List Int) (Dim : Nat)
    (hc : Dim ≤ cs.length) (hs : Dim ≤ ss.length)
    (h : ∀ k, k < Dim → P (cs.getD k 0) (ss.getD k 0)) :
    List.Forall₂ P (cs.take Dim) (ss.take Dim) := by
  rw [List.forall₂_iff_get]
  refine ⟨by simp [hc, hs], ?_⟩
  intro i h1 h2
  have hi : i < Dim := by
    rw [List.length_take] at h1
    omega
  have := h i hi
  rw [List.getD_eq_getElem _ _ (by omega), List.getD_eq_getElem _ _ (by omega)] at this
  simpa using this

theorem getD_of_forall2_take (P : Int → Int → Prop) (cs ss : List Int) (Dim : Nat)
    (hc : Dim ≤ cs.length) (hs : Dim ≤ ss.length)
    (h : List.Forall₂ P (cs.take Dim) (ss.take Dim)) (k : Nat) (hk : k < Dim) :
    P (cs.getD k 0) (ss.getD k 0) := by
  rw [List.forall₂_iff_get] at h
  have h1 : k < (cs.take Dim).length := by rw [List.length_take]; omega
  have h2 : k < (ss.take Dim).length := by rw [List.length_take]; omega
  have := h.2 k h1 h2
  rw [List.getD_eq_getElem _ _ (by omega), List.getD_eq_getElem _ _ (by omega)]
  simpa using this

/-! ## Lemmas on the index conversions -/

theorem drop_take_succ (l : List Int) (i fuel : Nat) (hi : i < l.length) :
    (l.drop i).take (fuel + 1) = l.getD i 0 :: (l.drop (i + 1)).take fuel := by
  rw [List.drop_eq_getElem_cons hi, List.take_succ_cons, List.getD_eq_getElem _ _ hi]

theorem set_take_drop (retval : List Int) (i fuel : Nat) (v : Int) (hi : i < retval.length) :
    (retval.set i v).take (i + 1) = retval.take i ++ [v] ∧
    (retval.set i v).drop (i + 1 + fuel) = retval.drop (i + 1 + fuel) := by
  constructor
  · rw [List.set_eq_take_append_cons_drop, if_pos hi]
    have hlen : (retval.take i).length = i := by rw [List.length_take]; omega
    rw [List.take_append_eq_append_take, hlen]
    simp
  · rw [List.drop_set]
    simp
    omega

theorem take_decode_append (Dim : Nat) (index : Int) (shape retval : List Int)
    (hs : Dim ≤ shape.length) :
    (radix_decode index (shape.take Dim) ++ retval.drop Dim).take Dim
      = radix_decode index (shape.take Dim) := by
  have hlen : (radix_decode index (shape.take Dim)).length = Dim := by
    rw [radix_decode_length, List.length_take]
    omega
  rw [List.take_append_eq_append_take, hlen, Nat.sub_self, List.take_zero, List.append_nil]
  exact List.take_of_length_le (le_of_eq hlen)

theorem wrap_int_of_bounds (w : Nat) (x : Int) (hw : 0 < w) (h0 : -2 ^ (w - 1) ≤ x)
    (h1 : x < 2 ^ (w - 1)) : wrap_int w x = x := by
  have hp : (2 : Int) ^ w = 2 * 2 ^ (w - 1) := by
    obtain ⟨k, rfl⟩ : ∃ k, w = k + 1 := ⟨w - 1, by omega⟩
    simp [pow_succ, mul_comm]
  unfold wrap_int
  rw [Int.emod_eq_of_lt (by omega) (by omega)]
  omega

theorem wrap_int_of_nonneg (w : Nat) (x : Int) (hw : 0 < w) (h0 : 0 ≤ x)
    (h1 : x < 2 ^ (w - 1)) : wrap_int w x = x := by
  have hpow : (0 : Int) < 2 ^ (w - 1) := by positivity
  exact wrap_int_of_bounds w x hw (by omega) h1

theorem prod_drop_take_pos (Dim : Nat) (shape : List Int) (hs : Dim ≤ shape.length)
    (hpos : ∀ k, k < Dim → 0 < shape.getD k 0) (fuel i : Nat) (hi : i + fuel ≤ Dim) :
    0 < ((shape.drop i).take fuel).prod := by
  induction fuel generalizing i with
  | zero => simp
  | succ fuel ih =>
    rw [drop_take_succ shape i fuel (by omega), List.prod_cons]
    exact mul_pos (hpos i (by omega)) (ih (i + 1) (by omega))

theorem dimension_to_linear_index_loop_eq (w Dim : Nat) (coord shape : List Int) (hw : 0 < w)
    (hb : ∀ k, k < Dim → 0 ≤ coord.getD k 0 ∧ coord.getD k 0 < shape.getD k 0)
    (fuel i : Nat) (index factor : Int) (hi : i + fuel = Dim) (hc : i + fuel ≤ coord.length)
    (hs : i + fuel ≤ shape.length) (h0 : 0 ≤ index) (h1 : index < factor)
    (hP : factor * ((shape.drop i).take fuel).prod < 2 ^ (w - 1)) :
    dimension_to_linear_index_loop w Dim coord shape fuel i index factor
      = index + factor * radix_encode ((coord.drop i).take fuel) ((shape.drop i).take fuel) ∧
    0 ≤ dimension_to_linear_index_loop w Dim coord shape fuel i index factor ∧
    dimension_to_linear_index_loop w Dim coord shape fuel i index factor
      < factor * ((shape.drop i).take fuel).prod := by
  induction fuel generalizing i index factor with
  | zero =>
    simp only [dimension_to_linear_index_loop, List.take_zero, radix_encode, List.prod_nil,
      mul_zero, add_zero, mul_one]
    exact ⟨trivial, h0, h1⟩
  | succ fuel ih =>
    have hpos : ∀ k, k < Dim → 0 < shape.getD k 0 := fun k hk => by
      have := hb k hk
      omega
    obtain ⟨hc0, hcs⟩ := hb i (by omega)
    have hfac : 0 < factor := lt_of_le_of_lt h0 h1
    have hrest : 0 < ((shape.drop (i + 1)).take fuel).prod :=
      prod_drop_take_pos Dim shape (by omega) hpos fuel (i + 1) (by omega)
    rw [drop_take_succ shape i fuel (by omega), List.prod_cons] at hP
    rw [drop_take_succ coord i fuel (by omega), drop_take_succ shape i fuel (by omega)]
    have hfs : factor * shape.getD i 0 ≤
        factor * (shape.getD i 0 * ((shape.drop (i + 1)).take fuel).prod) := by
      have : shape.getD i 0 * 1 ≤ shape.getD i 0 * ((shape.drop (i + 1)).take fuel).prod :=
        mul_le_mul_of_nonneg_left (by omega) (by omega)
      rw [mul_one] at this
      exact mul_le_mul_of_nonneg_left this (le_of_lt hfac)
    have hcf0 : 0 ≤ coord.getD i 0 * factor := mul_nonneg hc0 (le_of_lt hfac)
    have hidx1 : index + coord.getD i 0 * factor < factor * shape.getD i 0 := by
      have hle : coord.getD i 0 * factor ≤ (shape.getD i 0 - 1) * factor :=
        mul_le_mul_of_nonneg_right (by omega) (le_of_lt hfac)
      nlinarith
    have hw1 : wrap_int w (coord.getD i 0 * factor) = coord.getD i 0 * factor :=
      wrap_int_of_nonneg w _ hw hcf0 (by omega)
    have hw2 : wrap_int w (index + coord.getD i 0 * factor) = index + coord.getD i 0 * factor :=
      wrap_int_of_nonneg w _ hw (by omega) (by omega)
    have hw3 : wrap_int w (factor * shape.getD i 0) = factor * shape.getD i 0 :=
      wrap_int_of_nonneg w _ hw (le_of_lt (mul_pos hfac (hpos i (by omega)))) (by omega)
    simp only [dimension_to_linear_index_loop, radix_encode, hw1, hw2, hw3, List.prod_cons]
    by_cases hlast : i = Dim - 1
    · have hf : fuel = 0 := by omega
      subst hf
      simp only [hlast, ne_eq, not_true_eq_false, if_false, dimension_to_linear_index_loop,
        List.take_zero, radix_encode, List.prod_nil, mul_zero, add_zero, mul_one]
      rw [← hlast]
      exact ⟨by ring, by omega, hidx1⟩
    · simp only [ne_eq, hlast, not_false_eq_true, if_true]
      obtain ⟨e, r0, r1⟩ := ih (i + 1) (index + coord.getD i 0 * factor)
        (factor * shape.getD i 0) (by omega) (by omega) (by omega) (by omega) hidx1
        (by rw [mul_assoc]; exact hP)
      refine ⟨by rw [e]; ring, r0, by rw [← mul_assoc]; exact r1⟩

theorem linear_to_dim_index_loop_eq (w Dim : Nat) (index : Int) (shape : List Int) (hw : 0 < w)
    (h0 : 0 ≤ index) (hpos : ∀ k, k < Dim → 0 < shape.getD k 0)
    (fuel i : Nat) (factor : Int) (retval : List Int) (hi : i + fuel = Dim)
    (hs : i + fuel ≤ shape.length) (hr : i + fuel ≤ retval.length) (hf : 0 < factor)
    (hP : factor * ((shape.drop i).take fuel).prod < 2 ^ (w - 1)) :
    linear_to_dim_index_loop w Dim index shape fuel i factor retval
      = some (retval.take i ++ radix_decode (index / factor) ((shape.drop i).take fuel)
          ++ retval.drop (i + fuel)) := by
  induction fuel generalizing i factor retval with
  | zero => simp [linear_to_dim_index_loop, radix_decode]
  | succ fuel ih =>
    have hsi : 0 < shape.getD i 0 := hpos i (by omega)
    have hq : 0 ≤ index / factor := Int.ediv_nonneg h0 (le_of_lt hf)
    have hrest : 0 < ((shape.drop (i + 1)).take fuel).prod :=
      prod_drop_take_pos Dim shape (by omega) hpos fuel (i + 1) (by omega)
    rw [drop_take_succ shape i fuel (by omega), List.prod_cons] at hP
    have hfs : factor * shape.getD i 0 ≤
        factor * (shape.getD i 0 * ((shape.drop (i + 1)).take fuel).prod) := by
      have : shape.getD i 0 * 1 ≤ shape.getD i 0 * ((shape.drop (i + 1)).take fuel).prod :=
        mul_le_mul_of_nonneg_left (by omega) (by omega)
      rw [mul_one] at this
      exact mul_le_mul_of_nonneg_left this (le_of_lt hf)
    have hd : int_div w index factor = some (index / factor) := by
      have h1 : ¬ (factor = 0 ∨ (index = -2 ^ (w - 1) ∧ factor = -1)) := by
        rintro (h | ⟨_, h⟩) <;> omega
      simp only [int_div, h1, if_false]
      rw [Int.tdiv_eq_ediv h0 (le_of_lt hf)]
    have hm : int_mod w (index / factor) (shape.getD i 0)
        = some (index / factor % shape.getD i 0) := by
      have h1 : ¬ (shape.getD i 0 = 0 ∨ (index / factor = -2 ^ (w - 1) ∧ shape.getD i 0 = -1)) := by
        rintro (h | ⟨_, h⟩) <;> omega
      simp only [int_mod, h1, if_false]
      rw [Int.tmod_eq_emod hq (le_of_lt hsi)]
    have hw3 : wrap_int w (factor * shape.getD i 0) = factor * shape.getD i 0 :=
      wrap_int_of_nonneg w _ hw (le_of_lt (mul_pos hf hsi)) (by omega)
    obtain ⟨ht, hdr⟩ := set_take_drop retval i fuel
      (index / factor % shape.getD i 0) (by omega)
    rw [drop_take_succ shape i fuel (by omega)]
    simp only [linear_to_dim_index_loop, radix_decode, hd, hm, hw3]
    by_cases hlast : i = Dim - 1
    · have hfu : fuel = 0 := by omega
      subst hfu
      simp only [linear_to_dim_index_loop, List.take_zero, radix_decode]
      have hd0 := hdr
      simp only [Nat.add_zero] at hd0
      rw [← List.take_append_drop (i + 1) (retval.set i (index / factor % shape.getD i 0)), ht,
        hd0]
    · simp only [ne_eq, hlast, not_false_eq_true, if_true]
      rw [ih (i + 1) (factor * shape.getD i 0) _ (by omega) (by omega)
        (by rw [List.length_set]; omega) (mul_pos hf hsi) (by rw [mul_assoc]; exact hP), ht, hdr,
        ediv_ediv_of_nonneg index factor _ h0 (le_of_lt hf) (le_of_lt hsi)]
      simp [Nat.add_assoc, Nat.add_comm 1 fuel]

theorem linear_to_dim_index_eq (w Dim : Nat) (index : Int) (shape retval : List Int)
    (hw : 0 < w) (h0 : 0 ≤ index) (hpos : ∀ k, k < Dim → 0 < shape.getD k 0)
    (hs : Dim ≤ shape.length) (hr : Dim ≤ retval.length)
    (hfit : (shape.take Dim).prod < 2 ^ (w - 1)) :
    linear_to_dim_index w Dim index shape retval
      = some (radix_decode index (shape.take Dim) ++ retval.drop Dim) := by
  unfold linear_to_dim_index
  rw [linear_to_dim_index_loop_eq w Dim index shape hw h0 hpos Dim 0 1 retval (by omega)
    (by omega) (by omega) one_pos (by simpa using hfit)]
  simp

theorem dimension_to_linear_index_eq (w Dim : Nat) (coord shape : List Int) (hw : 0 < w)
    (hb : ∀ k, k < Dim → 0 ≤ coord.getD k 0 ∧ coord.getD k 0 < shape.getD k 0)
    (hc : Dim ≤ coord.length) (hs : Dim ≤ shape.length)
    (hfit : (shape.take Dim).prod < 2 ^ (w - 1)) :
    dimension_to_linear_index w Dim coord shape
      = radix_encode (coord.take Dim) (shape.take Dim) ∧
    0 ≤ dimension_to_linear_index w Dim coord shape ∧
    dimension_to_linear_index w Dim coord shape < (shape.take Dim).prod := by
  unfold dimension_to_linear_index
  have h := dimension_to_linear_index_loop_eq w Dim coord shape hw hb Dim 0 0 1 (by omega)
    (by omega) (by omega) le_rfl one_pos (by simpa using hfit)
  simpa using h

/-! ## Claim on the index conversions -/

/-- C33 (counterexample): with an index type of 32 bits and the shape `(65536, 65536, 2)`, whose
extents are positive, the factor `65536 * 65536` wraps to `0`.  For the linear index `0`, which
lies in `[0, product)`, `linear_to_dim_index` divides by this factor and yields no coordinates;
and `dimension_to_linear_index` gives the coordinates `(0, 0, 1)` the linear index `0`, which
is that of `(0, 0, 0)`. -/
theorem index_conversion_overflows :
    linear_to_dim_index 32 3 0 [65536, 65536, 2] [0, 0, 0] = none ∧
    dimension_to_linear_index 32 3 [0, 0, 1] [65536, 65536, 2] = 0 ∧
    dimension_to_linear_index 32 3 [0, 0, 0] [65536, 65536, 2] = 0 := by
  decide

/-- C33 (amended): for an index type of `w` bits and a shape whose extents are positive and
have a product below `2^(w-1)`, a linear index `i` with `0 <= i <` product is turned by
`linear_to_dim_index` into coordinates with `0 <= c[k] < shape[k]` on every axis, which
`dimension_to_linear_index` turns back into `i`; and coordinates with `0 <= c[k] < shape[k]` on
every axis are recovered by `linear_to_dim_index` from their linear index. -/
theorem index_round_trip (w Dim : Nat) (shape retval : List Int) (hw : 0 < w)
    (hs : Dim ≤ shape.length) (hr : Dim ≤ retval.length)
    (hpos : ∀ k, k < Dim → 0 < shape.getD k 0)
    (hfit : (shape.take Dim).prod < 2 ^ (w - 1)) :
    (∀ i : Int, 0 ≤ i → i < (shape.take Dim).prod →
      ∃ c, linear_to_dim_index w Dim i shape retval = some c ∧
        (∀ k, k < Dim → 0 ≤ c.getD k 0 ∧ c.getD k 0 < shape.getD k 0) ∧
        dimension_to_linear_index w Dim c shape = i) ∧
    (∀ c : List Int, Dim ≤ c.length →
      (∀ k, k < Dim → 0 ≤ c.getD k 0 ∧ c.getD k 0 < shape.getD k 0) →
      linear_to_dim_index w Dim (dimension_to_linear_index w Dim c shape) shape retval
        = some (c.take Dim ++ retval.drop Dim)) := by
  have hposmem : ∀ s ∈ shape.take Dim, 0 < s := by
    intro s hmem
    obtain ⟨k, hk, rfl⟩ := List.getElem_of_mem hmem
    have hkD : k < Dim := by rw [List.length_take] at hk; omega
    have := hpos k hkD
    rw [List.getD_eq_getElem _ _ (by omega)] at this
    simpa using this
  constructor
  · intro i hi0 hi1
    have hltd := linear_to_dim_index_eq w Dim i shape retval hw hi0 hpos hs hr hfit
    refine ⟨_, hltd, ?_⟩
    have hlen : Dim ≤ (radix_decode i (shape.take Dim) ++ retval.drop Dim).length := by
      rw [List.length_append, radix_decode_length, List.length_take]
      omega
    have htake := take_decode_append Dim i shape retval hs
    have hbnd : ∀ k, k < Dim →
        0 ≤ (radix_decode i (shape.take Dim) ++ retval.drop Dim).getD k 0 ∧
        (radix_decode i (shape.take Dim) ++ retval.drop Dim).getD k 0 < shape.getD k 0 := by
      intro k hk
      apply getD_of_forall2_take (fun c s => 0 ≤ c ∧ c < s) _ shape Dim hlen hs _ k hk
      rw [htake]
      exact radix_decode_bounds i _ hposmem
    refine ⟨hbnd, ?_⟩
    rw [(dimension_to_linear_index_eq w Dim _ shape hw hbnd hlen hs hfit).1, htake]
    exact radix_encode_decode i _ hposmem hi0 hi1
  · intro c hc hb
    have hfa := forall2_take_of_getD (fun c s => 0 ≤ c ∧ c < s) c shape Dim hc hs hb
    obtain ⟨he, he0, _⟩ := dimension_to_linear_index_eq w Dim c shape hw hb hc hs hfit
    rw [linear_to_dim_index_eq w Dim _ shape retval hw he0 hpos hs hr hfit, he,
      radix_decode_encode _ _ hfa]

/-- Witness of C33 (amended): 32 bits, shape `(2, 3, 4)`, linear index `17` and coordinates
`(1, 2, 3)`. -/
theorem index_round_trip_witness :
    (∃ c, linear_to_dim_index 32 3 17 [2, 3, 4] [0, 0, 0] = some c ∧
      (∀ k, k < 3 → 0 ≤ c.getD k 0 ∧ c.getD k 0 < [2, 3, 4].getD k 0) ∧
      dimension_to_linear_index 32 3 c [2, 3, 4] = 17) ∧
    linear_to_dim_index 32 3 (dimension_to_linear_index 32 3 [1, 2, 3] [2, 3, 4]) [2, 3, 4]
        [0, 0, 0]
      = some ([1, 2, 3].take 3 ++ [0, 0, 0].drop 3) :=
  ⟨(index_round_trip 32 3 [2, 3, 4] [0, 0, 0] (by decide) (by decide) (by decide)
      (by intro k hk; interval_cases k <;> decide) (by decide)).1 17 (by decide) (by decide),
    (index_round_trip 32 3 [2, 3, 4] [0, 0, 0] (by decide) (by decide) (by decide)
      (by intro k hk; interval_cases k <;> decide) (by decide)).2 [1, 2, 3] (by decide)
      (by intro k hk; interval_cases k <;> decide)⟩

/-! ## Lemmas on the sizing loop -/

theorem face_dist_one : face_dist 1 = 1 := by
  rw [face_dist_of_pos 1 one_pos]; norm_num

theorem bin_sizing_step_of_nonpos (w : Nat) (c : ℚ) (g : BinGrid) (r : ℚ) (hr : r ≤ 0) :
    bin_sizing_step w c g r = bin_sizing_step w c g 1 := by
  simp only [bin_sizing_step, face_dist_of_nonpos r hr, face_dist_one]

theorem bin_sizing_loop_of_nonpos (w : Nat) (c : ℚ) (r : ℚ) (hr : r ≤ 0)
    (before after : List ℚ) (g : BinGrid) :
    bin_sizing_loop w c (before ++ r :: after) g
      = bin_sizing_loop w c (before ++ 1 :: after) g := by
  induction before generalizing g with
  | nil => simp only [List.nil_append, bin_sizing_loop, bin_sizing_step_of_nonpos w c g r hr]
  | cons x t ih =>
    simp only [List.cons_append, bin_sizing_loop]
    cases bin_sizing_step w c g x with
    | none => rfl
    | some g1 => exact ih g1

theorem static_cast_int_eq_some (w : Nat) (x : ℚ) (k : Int) (h : static_cast_int w x = some k) :
    k = trunc_int x := by
  unfold static_cast_int at h
  split_ifs at h
  cases h
  rfl

theorem static_cast_int_of_fits (w : Nat) (x : ℚ) (h0 : -2 ^ (w - 1) ≤ trunc_int x)
    (h1 : trunc_int x < 2 ^ (w - 1)) : static_cast_int w x = some (trunc_int x) := by
  simp [static_cast_int, h0, h1]

theorem trunc_int_intCast (s : Int) : trunc_int (s : ℚ) = s := by
  unfold trunc_int
  split_ifs <;> simp

theorem bin_sizing_step_nbins_c (w : Nat) (c : ℚ) (g g1 : BinGrid) (r : ℚ)
    (h : bin_sizing_step w c g r = some g1) :
    c ≠ 0 ∧ g1.nbins_c = g.nbins_c ++ [nbins_axis r c] ∧
    g1.nbins = wrap_int w (g.nbins * nbins_axis r c) := by
  unfold bin_sizing_step at h
  by_cases hc : c = 0
  · simp [hc] at h
  · rw [if_neg hc] at h
    obtain ⟨t, ht, h⟩ := Option.bind_eq_some.mp h
    obtain ⟨s, _, h⟩ := Option.bind_eq_some.mp h
    have htt := static_cast_int_eq_some w _ t ht
    cases h
    exact ⟨hc, by simp [nbins_axis, htt], by simp [nbins_axis, htt]⟩

theorem bin_sizing_step_defined (w : Nat) (c : ℚ) (g : BinGrid) (hw : 1 < w) (hc : 0 < c)
    (h1 : ⌊1 / c⌋ < (2 : Int) ^ (w - 1)) (h2 : ⌈c⌉ < (2 : Int) ^ (w - 1)) :
    ∃ g1, bin_sizing_step w c g 1 = some g1 := by
  have hpow : (2 : Int) ≤ 2 ^ (w - 1) := by
    obtain ⟨k, rfl⟩ : ∃ k, w = k + 2 := ⟨w - 2, by omega⟩
    have : (1 : Int) ≤ 2 ^ k := one_le_pow₀ (by norm_num)
    simp only [Nat.add_succ_sub_one, pow_succ]
    omega
  have hq : (0 : ℚ) ≤ 1 / c := le_of_lt (one_div_pos.mpr hc)
  have ht : trunc_int (1 / c) = ⌊1 / c⌋ := trunc_int_of_nonneg _ hq
  have ht0 : 0 ≤ ⌊1 / c⌋ := Int.floor_nonneg.mpr hq
  have hcast1 : static_cast_int w (1 / c) = some ⌊1 / c⌋ := by
    rw [static_cast_int_of_fits w _ (by rw [ht]; omega) (by rw [ht]; exact h1), ht]
  have hs0 : 0 ≤ ⌈c * ((max ⌊1 / c⌋ 1 : Int) : ℚ)⌉ := by
    apply Int.ceil_nonneg
    apply mul_nonneg (le_of_lt hc)
    exact_mod_cast (le_trans zero_le_one (le_max_right _ _))
  have hs1 : ⌈c * ((max ⌊1 / c⌋ 1 : Int) : ℚ)⌉ < 2 ^ (w - 1) := by
    by_cases hone : 1 ≤ ⌊1 / c⌋
    · rw [max_eq_left hone]
      have hle : c * ((⌊1 / c⌋ : Int) : ℚ) ≤ 1 := by
        have := Int.floor_le (1 / c)
        calc c * ((⌊1 / c⌋ : Int) : ℚ) ≤ c * (1 / c) := mul_le_mul_of_nonneg_left this (le_of_lt hc)
          _ = 1 := by field_simp
      have : ⌈c * ((⌊1 / c⌋ : Int) : ℚ)⌉ ≤ 1 := Int.ceil_le.mpr (by simpa using hle)
      omega
    · rw [max_eq_right (by omega)]
      simpa using h2
  have hcast2 : static_cast_int w ((⌈c * ((max ⌊1 / c⌋ 1 : Int) : ℚ) / 1⌉ : Int) : ℚ)
      = some ⌈c * ((max ⌊1 / c⌋ 1 : Int) : ℚ)⌉ := by
    rw [div_one, static_cast_int_of_fits w _ (by rw [trunc_int_intCast]; omega)
      (by rw [trunc_int_intCast]; exact hs1), trunc_int_intCast]
  unfold bin_sizing_step
  rw [if_neg (ne_of_gt hc), face_dist_one, hcast1, Option.some_bind, hcast2,
    Option.some_bind]
  exact ⟨_, rfl⟩

/-- C26 (counterexample): for the reciprocal lengths `0`, `-1` and `1` and the bin size `1`
the sizing loop runs through its three turns and yields one bin per axis; it raises no
error. -/
theorem degenerate_cell_is_sized :
    bin_sizing 32 [0, -1, 1] 1
      = some { nbins_c := [1, 1, 1], neigh_search := [1, 1, 1], nbins := 1 } := by
  have hc : static_cast_int 32 1 = some 1 := by
    have ht : trunc_int 1 = 1 := by
      rw [trunc_int_of_nonneg 1 zero_le_one]; norm_num
    rw [static_cast_int_of_fits 32 1 (by rw [ht]; decide) (by rw [ht]; decide), ht]
  have hstep : ∀ g : BinGrid, bin_sizing_step 32 1 g 1
      = some { nbins_c := g.nbins_c ++ [1], neigh_search := g.neigh_search ++ [1],
               nbins := wrap_int 32 (g.nbins * 1) } := by
    intro g
    have h2 : static_cast_int 32 ((⌈(1 : ℚ) * ((max 1 1 : Int) : ℚ) / 1⌉ : Int) : ℚ) = some 1 := by
      have : ⌈(1 : ℚ) * ((max 1 1 : Int) : ℚ) / 1⌉ = 1 := by norm_num
      rw [this]
      exact_mod_cast hc
    unfold bin_sizing_step
    rw [if_neg one_ne_zero, face_dist_one, div_one, hc, Option.some_bind, h2,
      Option.some_bind]
    rfl
  have h0 := bin_sizing_step_of_nonpos 32 1
  simp only [bin_sizing, bin_sizing_loop, h0 _ 0 le_rfl, h0 _ (-1) (by norm_num), hstep]
  decide

/-- C26 (amended): for an axis whose reciprocal length `r` is zero or negative the sizing loop
takes the face distance `1`: the turn of the loop for that axis, and with it the whole sizing
loop, yields what it yields for the reciprocal length `1`; the bin count recorded for the axis
is `max(trunc(1 / c), 1)`; and for a positive bin size `c` such that `floor(1 / c)` and
`ceil(c)` fit the type `int`, the turn does yield a grid. -/
theorem degenerate_axis_fallback (r : ℚ) (hr : r ≤ 0) :
    face_dist r = 1 ∧
    (∀ (w : Nat) (c : ℚ) (g : BinGrid), bin_sizing_step w c g r = bin_sizing_step w c g 1) ∧
    (∀ (w : Nat) (c : ℚ) (before after : List ℚ),
      bin_sizing w (before ++ r :: after) c = bin_sizing w (before ++ 1 :: after) c) ∧
    (∀ (w : Nat) (c : ℚ) (g g1 : BinGrid), bin_sizing_step w c g r = some g1 →
      g1.nbins_c = g.nbins_c ++ [max (trunc_int (1 / c)) 1]) ∧
    (∀ (w : Nat) (c : ℚ) (g : BinGrid), 1 < w → 0 < c → ⌊1 / c⌋ < (2 : Int) ^ (w - 1) →
      ⌈c⌉ < (2 : Int) ^ (w - 1) → ∃ g1, bin_sizing_step w c g r = some g1) := by
  refine ⟨face_dist_of_nonpos r hr, fun w c g => bin_sizing_step_of_nonpos w c g r hr, ?_, ?_, ?_⟩
  · intro w c before after
    exact bin_sizing_loop_of_nonpos w c r hr before after _
  · intro w c g g1 h
    have := (bin_sizing_step_nbins_c w c g g1 r h).2.1
    rw [this]
    simp [nbins_axis, face_dist_of_nonpos r hr]
  · intro w c g hw hc h1 h2
    rw [bin_sizing_step_of_nonpos w c g r hr]
    exact bin_sizing_step_defined w c g hw hc h1 h2

/-- Witness of C26 (amended): reciprocal length `0`, bin size `1`, 32 bits. -/
theorem degenerate_axis_fallback_witness :
    face_dist 0 = 1 ∧ ∃ g1, bin_sizing_step 32 1
      { nbins_c := [], neigh_search := [], nbins := 1 } 0 = some g1 :=
  ⟨(degenerate_axis_fallback 0 le_rfl).1,
    (degenerate_axis_fallback 0 le_rfl).2.2.2.2 32 1 _ (by decide) one_pos
      (by norm_num) (by norm_num)⟩

end rascal
